import Mathlib

/-!
# iot-sacc: the `SimpleAsset` chaincode (`sacc.go`)

A shallow embedding of `sacc.go` and of the library functions its results
depend on (`strconv.Atoi`, `utf8.DecodeRuneInString`, the string, integer and
struct encoders of `encoding/json`), a decoder for the payload of `get`, and
theorems about the handlers `Init`, `Invoke`, `set`, `get` and
`getHistoryOfState`.

Conventions.
* A Go `string` is a sequence of bytes (`GoString`); it need not be valid UTF-8.
* A Go `(string, error)` pair is a `Result`: the string and the optional error
  message (`err.Error()`).
* The ledger accessor (`shim.ChaincodeStubInterface`) is a record of functions
  over an arbitrary ledger state `σ`.  Every call the chaincode makes on the
  accessor or on a history iterator is appended to `World.calls`.
-/

namespace Sacc

/-! ## Go strings -/

/-- One byte. -/
abbrev Byte := Fin 256

/-- A Go `string` (equally a `[]byte`): a finite sequence of bytes. -/
abbrev GoString := List Byte

/-- The bytes of an ASCII string literal of the source. -/
def lit (s : String) : GoString := s.toList.map (fun c => Fin.ofNat c.toNat)

/-- A Go `(string, error)` return value; the error is kept as its message. -/
abbrev Result := GoString × Option GoString

/-! ## `unicode/utf8` -/

/-- The constant `utf8.RuneError` (U+FFFD). -/
def RuneError : Nat := 0xFFFD

/-- The table `utf8.first`: information about the first byte of an encoding.
`0xF0` is `as` (ASCII), `0xF1` is `xx` (invalid); otherwise the low three bits
are the length and the high four bits index `acceptRanges`. -/
def first (b : Nat) : Nat :=
  if b < 0x80 then 0xF0
  else if b < 0xC2 then 0xF1
  else if b < 0xE0 then 0x02
  else if b = 0xE0 then 0x13
  else if b < 0xED then 0x03
  else if b = 0xED then 0x23
  else if b < 0xF0 then 0x03
  else if b = 0xF0 then 0x34
  else if b < 0xF4 then 0x04
  else if b = 0xF4 then 0x44
  else 0xF1

/-- The table `utf8.acceptRanges`: the admissible range of the second byte. -/
def acceptRanges (i : Nat) : Nat × Nat :=
  match i with
  | 0 => (0x80, 0xBF)
  | 1 => (0xA0, 0xBF)
  | 2 => (0x80, 0x9F)
  | 3 => (0x90, 0xBF)
  | 4 => (0x80, 0x8F)
  | _ => (0, 0)

/-- The function `utf8.DecodeRuneInString`: the first rune of `s` and its width
in bytes; `(RuneError, 1)` for an invalid encoding, `(RuneError, 0)` for the
empty string.  Masks and shifts are written as `%` and `*`. -/
def DecodeRuneInString (s : GoString) : Nat × Nat :=
  match s with
  | [] => (RuneError, 0)
  | s0 :: t =>
    let x := first s0.val
    if x ≥ 0xF0 then
      (if x % 2 = 1 then RuneError else s0.val, 1)
    else
      let sz := x % 8
      let accept := acceptRanges (x / 16)
      if s.length < sz then (RuneError, 1)
      else
        match t with
        | [] => (RuneError, 1)
        | s1 :: t1 =>
          if s1.val < accept.1 ∨ accept.2 < s1.val then (RuneError, 1)
          else if sz ≤ 2 then ((s0.val % 32) * 64 + s1.val % 64, 2)
          else
            match t1 with
            | [] => (RuneError, 1)
            | s2 :: t2 =>
              if s2.val < 0x80 ∨ 0xBF < s2.val then (RuneError, 1)
              else if sz ≤ 3 then
                ((s0.val % 16) * 4096 + (s1.val % 64) * 64 + s2.val % 64, 3)
              else
                match t2 with
                | [] => (RuneError, 1)
                | s3 :: _ =>
                  if s3.val < 0x80 ∨ 0xBF < s3.val then (RuneError, 1)
                  else
                    ((s0.val % 8) * 262144 + (s1.val % 64) * 4096
                      + (s2.val % 64) * 64 + s3.val % 64, 4)

/-- The function `utf8.ValidString`: every rune of `s` decodes without
`(RuneError, 1)`.  The fuel bounds the number of runes. -/
def validLoop : Nat → GoString → Bool
  | _, [] => true
  | 0, _ :: _ => false
  | fuel + 1, b :: t =>
    let d := DecodeRuneInString (b :: t)
    if d.1 = RuneError ∧ d.2 = 1 then false
    else validLoop fuel ((b :: t).drop d.2)

/-- A Go string that is valid UTF-8. -/
def ValidString (s : GoString) : Bool := validLoop s.length s

/-! ## `encoding/json`: strings -/

/-- The digit string `"0123456789abcdef"` of `encoding/json`, indexed. -/
def hex (i : Nat) : Byte :=
  if i < 10 then Fin.ofNat (0x30 + i) else Fin.ofNat (0x61 + (i - 10))

/-- The table `htmlSafeSet`: the ASCII bytes that are written unescaped when
HTML escaping is on, that is all of 0x20..0x7F but `"`, `&`, `<`, `>`, `\`. -/
def htmlSafeSet (b : Nat) : Bool :=
  0x20 ≤ b && b < 0x80 && b != 0x22 && b != 0x26 && b != 0x3C && b != 0x3E && b != 0x5C

/-- The escape written for an ASCII byte outside `htmlSafeSet`: a two-character
escape for `\`, `"`, newline, carriage return and tab, `\u00XX` otherwise.
(Go releases from 1.22 on write the two-character escapes `\b` and `\f` for
0x08 and 0x0C; both forms denote the same byte.) -/
def escapeByte (b : Byte) : GoString :=
  if b.val = 0x5C ∨ b.val = 0x22 then [0x5C, b]
  else if b.val = 0x0A then [0x5C, 0x6E]
  else if b.val = 0x0D then [0x5C, 0x72]
  else if b.val = 0x09 then [0x5C, 0x74]
  else [0x5C, 0x75, 0x30, 0x30, hex (b.val / 16), hex (b.val % 16)]

/-- The loop of the string encoder of `encoding/json` (`encodeState.string`
with `escapeHTML` set, as `json.Marshal` sets it): safe ASCII bytes and valid
multi-byte runes are copied, unsafe ASCII bytes are escaped, an invalid byte
becomes the escape of U+FFFD, U+2028 and U+2029 are escaped.  One unit of fuel
per rune. -/
def stringLoop : Nat → GoString → GoString
  | _, [] => []
  | 0, _ :: _ => []
  | fuel + 1, b :: t =>
    if b.val < 0x80 then
      if htmlSafeSet b.val then b :: stringLoop fuel t
      else escapeByte b ++ stringLoop fuel t
    else
      let d := DecodeRuneInString (b :: t)
      if d.1 = RuneError ∧ d.2 = 1 then
        lit "\\ufffd" ++ stringLoop fuel t
      else if d.1 = 0x2028 ∨ d.1 = 0x2029 then
        lit "\\u202" ++ hex (d.1 % 16) :: stringLoop fuel ((b :: t).drop d.2)
      else
        (b :: t).take d.2 ++ stringLoop fuel ((b :: t).drop d.2)

/-- A Go string as a JSON string literal, as `json.Marshal` writes it. -/
def jsonString (s : GoString) : GoString :=
  0x22 :: stringLoop s.length s ++ [0x22]

/-! ## `strconv` -/

/-- The two errors a `strconv.NumError` can wrap. -/
inductive NumError where
  | ErrSyntax
  | ErrRange
  deriving DecidableEq, Repr

/-- The constant `strconv.IntSize`: the width of `int` (64-bit platforms). -/
def intSize : Nat := 64

/-- The digit loop of `strconv.ParseUint(s, 10, 0)`: `n` is the `uint64`
accumulated so far.  A byte that is no decimal digit is a syntax error
(letters are digits of a larger base, so `d >= base`); an overflow stops the
scan at once with the largest value and a range error. -/
def parseUintLoop : GoString → Nat → Nat × Option NumError
  | [], n => (n, none)
  | c :: rest, n =>
    if 0x30 ≤ c.val ∧ c.val ≤ 0x39 then
      let d := c.val - 0x30
      if n ≥ (2 ^ 64 - 1) / 10 + 1 then (2 ^ intSize - 1, some .ErrRange)
      else
        let n10 := n * 10
        let n1 := (n10 + d) % 2 ^ 64
        if n1 < n10 ∨ n1 > 2 ^ intSize - 1 then (2 ^ intSize - 1, some .ErrRange)
        else parseUintLoop rest n1
    else (0, some .ErrSyntax)

/-- The function `strconv.ParseUint(s, 10, 0)`. -/
def ParseUint (s : GoString) : Nat × Option NumError :=
  if s = [] then (0, some .ErrSyntax) else parseUintLoop s 0

/-- The function `strconv.ParseInt(s, 10, 0)`. -/
def ParseInt (s : GoString) : Int × Option NumError :=
  match s with
  | [] => (0, some .ErrSyntax)
  | c :: rest =>
    let neg : Bool := c.val = 0x2D
    let digits := if c.val = 0x2B ∨ c.val = 0x2D then rest else s
    let r := ParseUint digits
    if r.2 = some .ErrSyntax then (0, some .ErrSyntax)
    else
      let cutoff : Nat := 2 ^ (intSize - 1)
      if !neg ∧ r.1 ≥ cutoff then ((cutoff : Int) - 1, some .ErrRange)
      else if neg ∧ r.1 > cutoff then (-(cutoff : Int), some .ErrRange)
      else (if neg then -(r.1 : Int) else (r.1 : Int), none)

/-- The digit loop of the fast path of `strconv.Atoi`: `ch -= '0'` wraps
around in a byte, so every non-digit ends above 9. -/
def atoiFastLoop : GoString → Nat → Option Nat
  | [], n => some n
  | c :: rest, n =>
    let ch := (c.val + 256 - 0x30) % 256
    if ch > 9 then none else atoiFastLoop rest (n * 10 + ch)

/-- The function `strconv.Atoi`: the fast path for strings of fewer than 19
bytes, `ParseInt(s, 10, 0)` otherwise.  The first component is what the
function returns as its `int`, also when the second is an error. -/
def Atoi (s : GoString) : Int × Option NumError :=
  if 0 < s.length ∧ s.length < 19 then
    match s with
    | [] => (0, some .ErrSyntax)
    | c :: rest =>
      let digits := if c.val = 0x2D ∨ c.val = 0x2B then rest else s
      if digits.length < 1 then (0, some .ErrSyntax)
      else
        match atoiFastLoop digits 0 with
        | none => (0, some .ErrSyntax)
        | some n => (if c.val = 0x2D then -(n : Int) else (n : Int), none)
  else ParseInt s

/-- The decimal digits of `n`, most significant first (`strconv.formatBits`
in base 10); nothing for zero.  The fuel bounds the number of digits. -/
def digitsLoop : Nat → Nat → GoString
  | 0, _ => []
  | fuel + 1, n =>
    if n = 0 then [] else digitsLoop fuel (n / 10) ++ [Fin.ofNat (0x30 + n % 10)]

/-- The function `strconv.AppendInt(nil, v, 10)`: what `encoding/json` writes
for an `int`. -/
def formatInt (v : Int) : GoString :=
  if v = 0 then [0x30]
  else if v < 0 then 0x2D :: digitsLoop v.natAbs v.natAbs
  else digitsLoop v.natAbs v.natAbs

/-! ## `fmt` -/

/-- The functions `fmt.Sprintf(format)` and `fmt.Errorf(format)` called with a
format and no operand: the text before the first `%` is copied; what `fmt`
writes for the rest of the format (`%!v(MISSING)`, `%!(NOVERB)`, ...) is the
parameter `verbs`.  A format without `%` is returned as it is. -/
def Sprintf0 (verbs : GoString → GoString) (format : GoString) : GoString :=
  match format with
  | [] => []
  | c :: rest => if c.val = 0x25 then verbs (c :: rest) else c :: Sprintf0 verbs rest

/-! ## The ledger accessor -/

/-- The type `queryresult.KeyModification`: one history record (the timestamp
is never read by the chaincode). -/
structure KeyModification where
  TxId : GoString
  Value : List Byte
  IsDelete : Bool
  deriving DecidableEq, Repr

/-- A history iterator (`shim.HistoryQueryIteratorInterface`): what the
successive calls of `Next` return.  `HasNext` is true while an answer is left. -/
abbrev HistoryQueryIterator := List (Except GoString KeyModification)

/-- The accessor `shim.ChaincodeStubInterface`, over a ledger state `σ`.
`PutState` returns its error (if any) and the new state; `GetState` returns an
error, the absent value (`nil`) or the bytes; `GetHistoryForKey` returns an
error or an iterator. -/
structure ChaincodeStub (σ : Type) where
  PutState : GoString → List Byte → σ → Option GoString × σ
  GetState : GoString → σ → Except GoString (Option (List Byte))
  GetHistoryForKey : GoString → σ → Except GoString HistoryQueryIterator

/-- A call made on the accessor or on a history iterator. -/
inductive Call where
  | PutState (key : GoString) (value : List Byte)
  | GetState (key : GoString)
  | GetHistoryForKey (key : GoString)
  | HasNext
  | Next
  | Close
  deriving DecidableEq, Repr

/-- The ledger state together with the calls made so far, oldest first. -/
structure World (σ : Type) where
  ledger : σ
  calls : List Call
  deriving DecidableEq

/-- The call `stub.PutState(key, value)`. -/
def callPutState {σ : Type} (stub : ChaincodeStub σ) (key : GoString) (value : List Byte)
    (w : World σ) : Option GoString × World σ :=
  let r := stub.PutState key value w.ledger
  (r.1, ⟨r.2, w.calls ++ [Call.PutState key value]⟩)

/-- The call `stub.GetState(key)`. -/
def callGetState {σ : Type} (stub : ChaincodeStub σ) (key : GoString) (w : World σ) :
    Except GoString (Option (List Byte)) × World σ :=
  (stub.GetState key w.ledger, ⟨w.ledger, w.calls ++ [Call.GetState key]⟩)

/-- The call `stub.GetHistoryForKey(key)`. -/
def callGetHistoryForKey {σ : Type} (stub : ChaincodeStub σ) (key : GoString) (w : World σ) :
    Except GoString HistoryQueryIterator × World σ :=
  (stub.GetHistoryForKey key w.ledger, ⟨w.ledger, w.calls ++ [Call.GetHistoryForKey key]⟩)

/-! ## `shim` responses -/

/-- The type `peer.Response`: status, message and payload (`none` is `nil`). -/
structure Response where
  Status : Nat
  Message : GoString
  Payload : Option (List Byte)
  deriving DecidableEq, Repr

/-- The function `shim.Success`: status `OK` (200) and the payload. -/
def shimSuccess (payload : Option (List Byte)) : Response :=
  { Status := 200, Message := [], Payload := payload }

/-- The function `shim.Error`: status `ERROR` (500) and the message. -/
def shimError (msg : GoString) : Response :=
  { Status := 500, Message := msg, Payload := none }

/-! ## `sacc.go` -/

/-- The struct `returnValues` local to `get`. -/
structure get.returnValues where
  Key : GoString
  Value : GoString
  deriving DecidableEq, Repr

/-- What `json.Marshal` writes for the `returnValues` of `get`. -/
def get.Marshal (r : get.returnValues) : GoString :=
  lit "\x7b\"key\":" ++ jsonString r.Key ++ lit ",\"value\":" ++ jsonString r.Value ++ lit "\x7d"

/-- The struct `history` local to `getHistoryOfState`. -/
structure getHistoryOfState.history where
  TxID : GoString
  Value : Int
  IsDelete : Bool
  deriving DecidableEq, Repr

/-- The struct `returnValues` local to `getHistoryOfState`.  The slice
`History` is `none` while it is `nil`. -/
structure getHistoryOfState.returnValues where
  NumberOfTransactions : Int
  AssetName : GoString
  History : Option (List getHistoryOfState.history)
  deriving DecidableEq, Repr

/-- The built-in `append(s, x)` on a slice that may be `nil`. -/
def sliceAppend {α : Type} (s : Option (List α)) (x : α) : Option (List α) :=
  match s with
  | none => some [x]
  | some l => some (l ++ [x])

/-- What `json.Marshal` writes for one `history` struct. -/
def getHistoryOfState.marshalHistory (h : getHistoryOfState.history) : GoString :=
  lit "\x7b\"txID\":" ++ jsonString h.TxID ++ lit ",\"value\":" ++ formatInt h.Value
    ++ lit ",\"isDelete\":" ++ (if h.IsDelete then lit "true" else lit "false") ++ lit "\x7d"

/-- The elements of a JSON array, separated by commas. -/
def joinComma : List GoString → GoString
  | [] => []
  | [x] => x
  | x :: y :: rest => x ++ 0x2C :: joinComma (y :: rest)

/-- What `json.Marshal` writes for the `returnValues` of `getHistoryOfState`:
a `nil` slice is written `null`. -/
def getHistoryOfState.Marshal (r : getHistoryOfState.returnValues) : GoString :=
  lit "\x7b\"numberOfTransactions\":" ++ formatInt r.NumberOfTransactions
    ++ lit ",\"assetName\":" ++ jsonString r.AssetName ++ lit ",\"history\":"
    ++ (match r.History with
        | none => lit "null"
        | some l => 0x5B :: joinComma (l.map getHistoryOfState.marshalHistory) ++ [0x5D])
    ++ lit "\x7d"

/-- The method `SimpleAsset.Init`, on the arguments `stub.GetStringArgs()`. -/
def Init {σ : Type} (stub : ChaincodeStub σ) (args : List GoString) (w : World σ) :
    Response × World σ :=
  if args.length ≠ 3 then
    (shimError (lit "Incorrect arguments. Expecting a key and a value"), w)
  else
    let r := callPutState stub (args.getD 1 []) (args.getD 2 []) w
    match r.1 with
    | some _ => (shimError (lit "Failed to create asset: " ++ args.getD 0 []), r.2)
    | none => (shimSuccess none, r.2)

/-- The function `set`. -/
def set {σ : Type} (stub : ChaincodeStub σ) (args : List GoString) (w : World σ) :
    Result × World σ :=
  if args.length ≠ 2 then
    (([], some (lit "Incorrect arguments. Expecting a key and a value")), w)
  else
    let r := callPutState stub (args.getD 0 []) (args.getD 1 []) w
    match r.1 with
    | some _ => (([], some (lit "Failed to set asset: " ++ args.getD 0 [])), r.2)
    | none =>
      ((lit "The state of the asset " ++ args.getD 0 []
          ++ lit " has been setup successfully with the value " ++ args.getD 1 [], none), r.2)

/-- The function `get`. -/
def get {σ : Type} (stub : ChaincodeStub σ) (args : List GoString) (w : World σ) :
    Result × World σ :=
  if args.length ≠ 1 then
    (([], some (lit "Incorrect arguments. Expecting a key")), w)
  else
    let r := callGetState stub (args.getD 0 []) w
    match r.1 with
    | .error err =>
      (([], some (lit "Failed to get asset: " ++ args.getD 0 [] ++ lit " with error: " ++ err)),
        r.2)
    | .ok none => (([], some (lit "Asset not found: " ++ args.getD 0 [])), r.2)
    | .ok (some value) =>
      ((get.Marshal { Key := args.getD 0 [], Value := value }, none), r.2)

/-- The `for historyQueryIterator.HasNext()` loop of `getHistoryOfState`: the
iterator's remaining answers, the response built so far and the world.  It
ends with the error returned from inside the loop or with the response. -/
def getHistoryOfState.loop {σ : Type} (verbs : GoString → GoString) :
    HistoryQueryIterator → getHistoryOfState.returnValues → World σ →
      Except GoString getHistoryOfState.returnValues × World σ
  | [], response, w => (.ok response, { w with calls := w.calls ++ [Call.HasNext] })
  | .error err :: _, _, w =>
    (.error (Sprintf0 verbs (lit "Error in reading history record" ++ err)),
      { w with calls := w.calls ++ [Call.HasNext, Call.Next] })
  | .ok resultModification :: rest, response, w =>
    let val := (Atoi resultModification.Value).1
    let data : getHistoryOfState.history :=
      { TxID := resultModification.TxId, Value := val, IsDelete := resultModification.IsDelete }
    getHistoryOfState.loop verbs rest
      { response with
        NumberOfTransactions := response.NumberOfTransactions + 1
        History := sliceAppend response.History data }
      { w with calls := w.calls ++ [Call.HasNext, Call.Next] }

/-- The function `getHistoryOfState`. -/
def getHistoryOfState {σ : Type} (verbs : GoString → GoString) (stub : ChaincodeStub σ)
    (args : List GoString) (w : World σ) : Result × World σ :=
  if args.length < 1 then
    (([], some (lit "Must provide a key")), w)
  else
    let r := callGetHistoryForKey stub (args.getD 0 []) w
    match r.1 with
    | .error err => (([], some (Sprintf0 verbs (lit "Error in fetching history: " ++ err))), r.2)
    | .ok historyQueryIterator =>
      let l := getHistoryOfState.loop verbs historyQueryIterator
        { NumberOfTransactions := 0, AssetName := args.getD 0 [], History := none } r.2
      match l.1 with
      | .error msg => (([], some msg), l.2)
      | .ok response =>
        ((getHistoryOfState.Marshal response, none),
          { l.2 with calls := l.2.calls ++ [Call.Close] })

/-- The method `SimpleAsset.Invoke`, on the function name and the arguments
`stub.GetFunctionAndParameters()`. -/
def Invoke {σ : Type} (verbs : GoString → GoString) (stub : ChaincodeStub σ)
    (fn : GoString) (args : List GoString) (w : World σ) : Response × World σ :=
  let wrap (r : Result × World σ) : Response × World σ :=
    match r.1.2 with
    | some err => (shimError err, r.2)
    | none => (shimSuccess (some r.1.1), r.2)
  if fn = lit "set" then wrap (set stub args w)
  else if fn = lit "get" then wrap (get stub args w)
  else if fn = lit "getHistoryOfState" then wrap (getHistoryOfState verbs stub args w)
  else (shimError (lit "Invalid chaincode function name"), w)

/-! ## An in-memory accessor -/

/-- An accessor over an association list, newest binding first: `PutState`
fails with `putErr` when that is set and otherwise adds the binding,
`GetState` looks the key up, `GetHistoryForKey` answers `hist key`. -/
def memStub (putErr : Option GoString) (hist : GoString → Except GoString HistoryQueryIterator) :
    ChaincodeStub (List (GoString × List Byte)) where
  PutState := fun key value l =>
    match putErr with
    | some e => (some e, l)
    | none => (none, (key, value) :: l)
  GetState := fun key l => .ok (l.lookup key)
  GetHistoryForKey := fun key _ => hist key

/-- The world before any call, over the empty in-memory ledger. -/
def emptyWorld : World (List (GoString × List Byte)) := ⟨[], []⟩

/-! ## Decoding a JSON string literal -/

/-- The value of a hexadecimal digit. -/
def unhex (b : Nat) : Option Nat :=
  if 0x30 ≤ b ∧ b ≤ 0x39 then some (b - 0x30)
  else if 0x61 ≤ b ∧ b ≤ 0x66 then some (b - 0x61 + 10)
  else if 0x41 ≤ b ∧ b ≤ 0x46 then some (b - 0x41 + 10)
  else none

/-- The UTF-8 encoding of a code point (`utf8.EncodeRune`); a surrogate or
a value beyond U+10FFFF is encoded as U+FFFD. -/
def encodeRune (r : Nat) : GoString :=
  if r < 0x80 then [Fin.ofNat r]
  else if r < 0x800 then [Fin.ofNat (0xC0 + r / 64), Fin.ofNat (0x80 + r % 64)]
  else if (0xD800 ≤ r ∧ r ≤ 0xDFFF) ∨ 0x10FFFF < r then [0xEF, 0xBF, 0xBD]
  else if r < 0x10000 then
    [Fin.ofNat (0xE0 + r / 4096), Fin.ofNat (0x80 + r / 64 % 64), Fin.ofNat (0x80 + r % 64)]
  else
    [Fin.ofNat (0xF0 + r / 262144), Fin.ofNat (0x80 + r / 4096 % 64),
      Fin.ofNat (0x80 + r / 64 % 64), Fin.ofNat (0x80 + r % 64)]

/-- The byte a two-character escape stands for. -/
def unescape (e : Nat) : Option Byte :=
  if e = 0x22 then some 0x22
  else if e = 0x5C then some 0x5C
  else if e = 0x2F then some 0x2F
  else if e = 0x62 then some 0x08
  else if e = 0x66 then some 0x0C
  else if e = 0x6E then some 0x0A
  else if e = 0x72 then some 0x0D
  else if e = 0x74 then some 0x09
  else none

/-- Reads the body of a JSON string literal up to its closing quote: the bytes
it denotes and the text after the quote.  Escapes are resolved, a `\uXXXX`
escape to the UTF-8 encoding of its code point (two surrogate escapes are not
combined into one code point; the encoder writes none); every other byte from
0x20 on stands for itself.  `none` when the text is no string literal. -/
def unquoteLoop : GoString → Option (GoString × GoString)
  | [] => none
  | b :: rest =>
    if b.val = 0x22 then some ([], rest)
    else if b.val = 0x5C then
      match rest with
      | [] => none
      | e :: rest1 =>
        if e.val = 0x75 then
          match rest1 with
          | h1 :: h2 :: h3 :: h4 :: rest2 =>
            match unhex h1.val, unhex h2.val, unhex h3.val, unhex h4.val with
            | some d1, some d2, some d3, some d4 =>
              (unquoteLoop rest2).map
                (fun p => (encodeRune (d1 * 4096 + d2 * 256 + d3 * 16 + d4) ++ p.1, p.2))
            | _, _, _, _ => none
          | _ => none
        else
          match unescape e.val with
          | none => none
          | some c => (unquoteLoop rest1).map (fun p => (c :: p.1, p.2))
    else if b.val < 0x20 then none
    else (unquoteLoop rest).map (fun p => (b :: p.1, p.2))

/-- Reads the text `p` off the front of `s`: the rest of `s`, or `none` when
`s` does not start with `p`. -/
def expect : GoString → GoString → Option GoString
  | [], s => some s
  | _ :: _, [] => none
  | a :: p, b :: s => if a = b then expect p s else none

/-- Decodes a payload of the shape `get` returns, a JSON object with the two
string members `key` and `value`, in that order: the key and the value its two
string literals denote. -/
def decodeGetPayload (payload : GoString) : Option (GoString × GoString) :=
  (expect (lit "\x7b\"key\":\"") payload).bind fun s1 =>
  (unquoteLoop s1).bind fun kv =>
  (expect (lit ",\"value\":\"") kv.2).bind fun s3 =>
  (unquoteLoop s3).bind fun vv =>
  if vv.2 = lit "\x7d" then some (kv.1, vv.1) else none

/-! ## Vocabulary of the statements -/

/-- The `history` entry built from one record, as in the loop body. -/
def historyOf (km : KeyModification) : getHistoryOfState.history :=
  { TxID := km.TxId, Value := (Atoi km.Value).1, IsDelete := km.IsDelete }

/-- The calls of `n` rounds of the loop: `HasNext` then `Next`, `n` times. -/
def iterCalls : Nat → List Call
  | 0 => []
  | n + 1 => Call.HasNext :: Call.Next :: iterCalls n

/-- The response envelope `Invoke` builds from a handler's return value:
`shim.Error` of the message when the error is set, `shim.Success` of the
string's bytes otherwise; the world is the handler's. -/
def envelope {σ : Type} (r : Result × World σ) : Response × World σ :=
  match r.1.2 with
  | some err => ({ Status := 500, Message := err, Payload := none }, r.2)
  | none => ({ Status := 200, Message := [], Payload := some r.1.1 }, r.2)

/-- Tells whether a call is a `PutState`. -/
def Call.isPut : Call → Bool
  | .PutState _ _ => true
  | _ => false

/-! ## Decimal text -/

/-- The number a run of decimal digits denotes, read from the left with `n`
the value of the digits already read; `none` when a byte is no digit. -/
def digitsValue : GoString → Nat → Option Nat
  | [], n => some n
  | c :: rest, n =>
    if 0x30 ≤ c.val ∧ c.val ≤ 0x39 then digitsValue rest (n * 10 + (c.val - 0x30)) else none

/-- The integer a base-10 text denotes: an optional sign `-` or `+` followed
by one decimal digit or more; `none` for any other text. -/
def decimalValue (s : GoString) : Option Int :=
  match s with
  | [] => none
  | c :: rest =>
    if c.val = 0x2D then
      if rest = [] then none else (digitsValue rest 0).map (fun n => -Int.ofNat n)
    else if c.val = 0x2B then
      if rest = [] then none else (digitsValue rest 0).map Int.ofNat
    else (digitsValue (c :: rest) 0).map Int.ofNat

/-! ## An in-memory accessor that keeps the history -/

/-- An accessor over the list of the writes committed so far, oldest first:
`PutState` never fails and appends a record with a fresh transaction id,
`GetState` answers the value of the newest record of the key,
`GetHistoryForKey` iterates over the records of the key in commit order. -/
def ledgerStub : ChaincodeStub (List (GoString × KeyModification)) where
  PutState := fun key value l =>
    (none, l ++ [(key, { TxId := lit "tx" ++ formatInt l.length, Value := value,
                         IsDelete := false })])
  GetState := fun key l =>
    .ok ((l.reverse.find? (fun p => p.1 = key)).map (fun p => p.2.Value))
  GetHistoryForKey := fun key l =>
    .ok ((l.filter (fun p => p.1 = key)).map (fun p => .ok p.2))

/-! ## Decoding the history report -/

/-- The string `json.Marshal` writes for a Go string, read back: every byte
that is not part of a valid UTF-8 encoding is replaced by the three bytes of
U+FFFD, everything else is kept.  One unit of fuel per rune. -/
def coerceLoop : Nat → GoString → GoString
  | _, [] => []
  | 0, _ :: _ => []
  | fuel + 1, b :: t =>
    if b.val < 0x80 then b :: coerceLoop fuel t
    else
      let d := DecodeRuneInString (b :: t)
      if d.1 = RuneError ∧ d.2 = 1 then
        [0xEF, 0xBF, 0xBD] ++ coerceLoop fuel t
      else
        (b :: t).take d.2 ++ coerceLoop fuel ((b :: t).drop d.2)

/-- A Go string coerced to valid UTF-8 the way `json.Marshal` does it. -/
def coerceUTF8 (s : GoString) : GoString := coerceLoop s.length s

/-- Reads the longest run of decimal digits off the front of a text: the
number it denotes, with `n` the value of the digits already read, and the
rest of the text. -/
def readDigits : GoString → Nat → Nat × GoString
  | [], n => (n, [])
  | c :: rest, n =>
    if 0x30 ≤ c.val ∧ c.val ≤ 0x39 then readDigits rest (n * 10 + (c.val - 0x30))
    else (n, c :: rest)

/-- Reads a JSON integer off the front of a text: an optional `-` and one
decimal digit or more; the integer and the rest of the text. -/
def readInt (s : GoString) : Option (Int × GoString) :=
  match s with
  | [] => none
  | c :: rest =>
    if c.val = 0x2D then
      match rest with
      | [] => none
      | d :: _ =>
        if 0x30 ≤ d.val ∧ d.val ≤ 0x39 then
          some (-Int.ofNat (readDigits rest 0).1, (readDigits rest 0).2)
        else none
    else if 0x30 ≤ c.val ∧ c.val ≤ 0x39 then
      some (Int.ofNat (readDigits (c :: rest) 0).1, (readDigits (c :: rest) 0).2)
    else none

/-- Reads `true` or `false` off the front of a text. -/
def readBool (s : GoString) : Option (Bool × GoString) :=
  match expect (lit "true") s with
  | some rest => some (true, rest)
  | none =>
    match expect (lit "false") s with
    | some rest => some (false, rest)
    | none => none

/-- Reads one history object, with the members `txID`, `value` and `isDelete`
in that order, off the front of a text. -/
def readEntry (s : GoString) : Option (getHistoryOfState.history × GoString) :=
  (expect (lit "\x7b\"txID\":\"") s).bind fun s1 =>
  (unquoteLoop s1).bind fun tx =>
  (expect (lit ",\"value\":") tx.2).bind fun s2 =>
  (readInt s2).bind fun v =>
  (expect (lit ",\"isDelete\":") v.2).bind fun s3 =>
  (readBool s3).bind fun d =>
  (expect (lit "\x7d") d.2).bind fun s4 =>
  some ({ TxID := tx.1, Value := v.1, IsDelete := d.1 }, s4)

/-- Reads the history objects of a JSON array, separated by commas, up to the
closing bracket.  One unit of fuel per object. -/
def readEntries : Nat → GoString → Option (List getHistoryOfState.history × GoString)
  | 0, _ => none
  | fuel + 1, s =>
    match readEntry s with
    | none => none
    | some (entry, rest) =>
      match rest with
      | [] => none
      | c :: more =>
        if c.val = 0x2C then (readEntries fuel more).map (fun p => (entry :: p.1, p.2))
        else if c.val = 0x5D then some ([entry], more)
        else none

/-- Reads the member `history`: `null` (the `nil` slice) or a JSON array of
history objects. -/
def readHistory (s : GoString) :
    Option (Option (List getHistoryOfState.history) × GoString) :=
  match expect (lit "null") s with
  | some rest => some (none, rest)
  | none =>
    match s with
    | [] => none
    | c :: rest =>
      if c.val = 0x5B then
        match rest with
        | [] => none
        | d :: more =>
          if d.val = 0x5D then some (some [], more)
          else (readEntries rest.length rest).map (fun p => (some p.1, p.2))
      else none

/-- Decodes the payload of `getHistoryOfState`: a JSON object with the members
`numberOfTransactions`, `assetName` and `history`, in that order, and nothing
after it. -/
def decodeReport (payload : GoString) : Option getHistoryOfState.returnValues :=
  (expect (lit "\x7b\"numberOfTransactions\":") payload).bind fun s1 =>
  (readInt s1).bind fun n =>
  (expect (lit ",\"assetName\":\"") n.2).bind fun s2 =>
  (unquoteLoop s2).bind fun name =>
  (expect (lit ",\"history\":") name.2).bind fun s3 =>
  (readHistory s3).bind fun h =>
  if h.2 = lit "\x7d" then
    some { NumberOfTransactions := n.1, AssetName := name.1, History := h.1 }
  else none

/-- A history entry with its transaction id coerced to valid UTF-8. -/
def coerceEntry (h : getHistoryOfState.history) : getHistoryOfState.history :=
  { TxID := coerceUTF8 h.TxID, Value := h.Value, IsDelete := h.IsDelete }

/-- Tells whether a text parses as a base-10 integer of type `int`: it is an
optional sign followed by decimal digits, and the integer it denotes lies
between the smallest and the largest `int`. -/
def parsesAsInt (s : GoString) : Bool :=
  match decimalValue s with
  | some n => decide (-(2 ^ 63) ≤ n ∧ n ≤ 2 ^ 63 - 1)
  | none => false

/-- The value reported for a text that does not parse as an `int`, told from
the text alone.  When the text is a decimal integer (then out of range), or
when the digits that follow its optional sign start with a run whose value is
2^64 or more (whatever comes after the run), the value is the largest `int`,
or the smallest one when the sign is `-`; for every other text it is zero. -/
def unparsedValue (s : GoString) : Int :=
  match s with
  | [] => 0
  | c :: rest =>
    if (decimalValue (c :: rest)).isSome
        ∨ 2 ^ 64 ≤ (readDigits (if c.val = 0x2D ∨ c.val = 0x2B then rest else c :: rest) 0).1 then
      (if c.val = 0x2D then -(2 ^ 63) else 2 ^ 63 - 1)
    else 0

/-! ## `fmt` with no operand -/

/-- The function `parsenum` of `fmt`, on the text from the start position on:
whether a number was read, and the text after it.  A number that grows beyond
1e6 is given up and the whole text is skipped. -/
def parsenumLoop : GoString → Nat → Bool → Bool × GoString
  | [], _, isnum => (isnum, [])
  | c :: rest, num, isnum =>
    if 0x30 ≤ c.val ∧ c.val ≤ 0x39 then
      if num > 1000000 then (false, [])
      else parsenumLoop rest (num * 10 + (c.val - 0x30)) true
    else (isnum, c :: rest)

/-- The text between an opening bracket and the first closing bracket, and
the text after that bracket; `none` when no bracket closes. -/
def splitBracket : GoString → Option (GoString × GoString)
  | [] => none
  | c :: rest =>
    if c.val = 0x5D then some ([], rest)
    else (splitBracket rest).map (fun p => (c :: p.1, p.2))

/-- The method `argNumber` of `fmt` when there is no operand: the text after
an explicit argument index `[n]`, whether the index was well formed, and
whether a bracket was met (no index is in range, so a bracket always makes
the argument number bad). -/
def argNumber (s : GoString) : GoString × Bool × Bool :=
  match s with
  | [] => ([], false, false)
  | c :: rest =>
    if c.val = 0x5B then
      if (c :: rest).length < 3 then (rest, false, true)
      else
        match splitBracket rest with
        | none => (rest, false, true)
        | some (inside, after) =>
          let r := parsenumLoop inside 0 false
          (after, r.1 && r.2.isEmpty, true)
    else (c :: rest, false, false)

/-- The loop of `doPrintf` of `fmt` for a format and no operand: text is copied
up to a `%`; after it come flags, an argument index, a width, a precision, an
argument index and the verb.  `%%` writes `%`; any other verb writes
`%!verb(BADINDEX)` after a bracket and `%!verb(MISSING)` otherwise; a `*`
width or precision writes `%!(BADWIDTH)` or `%!(BADPREC)`; a format that ends
before the verb writes `%!(NOVERB)`.  One unit of fuel per byte or verb. -/
def doPrintf0 : Nat → GoString → GoString
  | _, [] => []
  | 0, _ :: _ => []
  | fuel + 1, c :: rest =>
    if c.val ≠ 0x25 then c :: doPrintf0 fuel rest
    else
      let s1 := rest.dropWhile (fun f =>
        f.val = 0x23 ∨ f.val = 0x30 ∨ f.val = 0x2B ∨ f.val = 0x2D ∨ f.val = 0x20)
      let a1 := argNumber s1
      -- width: text after it, what is written, afterIndex, goodArgNum
      let w : GoString × GoString × Bool × Bool :=
        match a1.1 with
        | [] => ([], [], a1.2.1, !a1.2.2)
        | x :: t =>
          if x.val = 0x2A then (t, lit "%!(BADWIDTH)", false, !a1.2.2)
          else
            let r := parsenumLoop (x :: t) 0 false
            (r.2, [], a1.2.1, !a1.2.2 && !(a1.2.1 && r.1))
      -- precision
      let p : GoString × GoString × Bool × Bool :=
        match w.1 with
        | [] => ([], [], w.2.2.1, w.2.2.2)
        | x :: t =>
          if x.val = 0x2E then
            let a2 := argNumber t
            let good := w.2.2.2 && !w.2.2.1 && !a2.2.2
            match a2.1 with
            | [] => ([], [], a2.2.1, good)
            | y :: u =>
              if y.val = 0x2A then (u, lit "%!(BADPREC)", false, good)
              else ((parsenumLoop (y :: u) 0 false).2, [], a2.2.1, good)
          else (x :: t, [], w.2.2.1, w.2.2.2)
      -- a last argument index
      let a3 : GoString × Bool :=
        if p.2.2.1 then (p.1, p.2.2.2)
        else ((argNumber p.1).1, p.2.2.2 && !(argNumber p.1).2.2)
      match a3.1 with
      | [] => w.2.1 ++ p.2.1 ++ lit "%!(NOVERB)"
      | v :: t =>
        let d := if v.val < 0x80 then (v.val, 1) else DecodeRuneInString (v :: t)
        w.2.1 ++ p.2.1
          ++ (if d.1 = 0x25 then [0x25]
              else if a3.2 then lit "%!" ++ encodeRune d.1 ++ lit "(MISSING)"
              else lit "%!" ++ encodeRune d.1 ++ lit "(BADINDEX)")
          ++ doPrintf0 fuel ((v :: t).drop d.2)

/-- What `fmt` writes for a format, from its first `%` on, when there is no
operand: the value of the parameter `verbs` in the running program. -/
def fmtVerbs (format : GoString) : GoString := doPrintf0 format.length format

/-! ## Facts about `utf8.DecodeRuneInString` -/

theorem ofNat_val (b : Byte) : (Fin.ofNat b.val : Byte) = b := by
  apply Fin.ext
  simp [Fin.ofNat]

theorem first_ascii (b : Nat) (h : b < 0x80) : first b = 0xF0 := by
  simp only [first]
  rw [if_pos h]

theorem first_xx (b : Nat) (h : (0x80 ≤ b ∧ b < 0xC2) ∨ 0xF4 < b) : first b = 0xF1 := by
  simp only [first]
  rcases h with h | h
  · rw [if_neg (by omega), if_pos (by omega)]
  · rw [if_neg (by omega), if_neg (by omega), if_neg (by omega), if_neg (by omega),
      if_neg (by omega), if_neg (by omega), if_neg (by omega), if_neg (by omega),
      if_neg (by omega), if_neg (by omega)]

theorem first_two (b : Nat) (h : 0xC2 ≤ b ∧ b < 0xE0) : first b = 0x02 := by
  simp only [first]
  rw [if_neg (by omega), if_neg (by omega), if_pos (by omega)]

theorem first_three (b : Nat) (h : 0xE0 ≤ b ∧ b < 0xF0) :
    first b = 0x13 ∨ first b = 0x03 ∨ first b = 0x23 := by
  simp only [first]
  rw [if_neg (by omega), if_neg (by omega), if_neg (by omega)]
  by_cases h1 : b = 0xE0
  · rw [if_pos h1]; simp
  rw [if_neg h1]
  by_cases h2 : b < 0xED
  · rw [if_pos h2]; simp
  rw [if_neg h2]
  by_cases h3 : b = 0xED
  · rw [if_pos h3]; simp
  rw [if_neg h3, if_pos (by omega)]; simp

theorem first_four (b : Nat) (h : 0xF0 ≤ b ∧ b ≤ 0xF4) :
    (first b = 0x34 ∧ b = 0xF0) ∨ (first b = 0x04 ∧ 0xF0 < b) ∨ (first b = 0x44 ∧ 0xF0 < b) := by
  simp only [first]
  rw [if_neg (by omega), if_neg (by omega), if_neg (by omega), if_neg (by omega),
    if_neg (by omega), if_neg (by omega), if_neg (by omega)]
  by_cases h1 : b = 0xF0
  · rw [if_pos h1]; simp [h1]
  rw [if_neg h1]
  by_cases h2 : b < 0xF4
  · rw [if_pos h2]; simp; omega
  rw [if_neg h2, if_pos (by omega)]; simp; omega

theorem decode_ascii (b : Byte) (t : GoString) (hb : b.val < 0x80) :
    DecodeRuneInString (b :: t) = (b.val, 1) := by
  unfold DecodeRuneInString
  simp only [first_ascii _ hb]
  rfl

theorem decode_xx (b : Byte) (t : GoString)
    (h : (0x80 ≤ b.val ∧ b.val < 0xC2) ∨ 0xF4 < b.val) :
    DecodeRuneInString (b :: t) = (RuneError, 1) := by
  unfold DecodeRuneInString
  simp only [first_xx _ h]
  rfl


/-- Every decoding of a string that starts with a non-ASCII byte is an error
of width one or a rune of two, three or four bytes, all of them 0x80 or more. -/
theorem decode_cases (b : Byte) (t : GoString) (hb : 0x80 ≤ b.val) :
    DecodeRuneInString (b :: t) = (RuneError, 1)
    ∨ (∃ s1 t1, t = s1 :: t1 ∧ 0x80 ≤ s1.val ∧
        (DecodeRuneInString (b :: t)).2 = 2 ∧ (DecodeRuneInString (b :: t)).1 < 0x800)
    ∨ (∃ s1 s2 t2, t = s1 :: s2 :: t2 ∧ 0x80 ≤ s1.val ∧ 0x80 ≤ s2.val ∧
        s1.val ≤ 0xBF ∧ s2.val ≤ 0xBF ∧ 0xE0 ≤ b.val ∧ b.val ≤ 0xEF ∧
        DecodeRuneInString (b :: t)
          = ((b.val % 16) * 4096 + (s1.val % 64) * 64 + s2.val % 64, 3))
    ∨ (∃ s1 s2 s3 t3, t = s1 :: s2 :: s3 :: t3 ∧ 0x80 ≤ s1.val ∧ 0x80 ≤ s2.val ∧
        0x80 ≤ s3.val ∧ (DecodeRuneInString (b :: t)).2 = 4 ∧
        0x10000 ≤ (DecodeRuneInString (b :: t)).1) := by
  have hb2 := b.isLt
  by_cases h1 : (0x80 ≤ b.val ∧ b.val < 0xC2) ∨ 0xF4 < b.val
  · exact Or.inl (decode_xx b t h1)
  by_cases h2 : 0xC2 ≤ b.val ∧ b.val < 0xE0
  · have hf := first_two _ h2
    rcases t with _ | ⟨s1, t1⟩
    · left; unfold DecodeRuneInString; simp only [hf]; rfl
    · have e : DecodeRuneInString (b :: s1 :: t1) =
          if s1.val < 0x80 ∨ 0xBF < s1.val then (RuneError, 1)
          else ((b.val % 32) * 64 + s1.val % 64, 2) := by
        unfold DecodeRuneInString; simp only [hf]; simp [acceptRanges]
      by_cases hs : s1.val < 0x80 ∨ 0xBF < s1.val
      · left; rw [e, if_pos hs]
      · right; left
        refine ⟨s1, t1, rfl, by omega, ?_, ?_⟩
        · rw [e, if_neg hs]
        · rw [e, if_neg hs]; show _ < 2048; omega
  by_cases h3 : 0xE0 ≤ b.val ∧ b.val < 0xF0
  · rcases t with _ | ⟨s1, _ | ⟨s2, t2⟩⟩
    · left
      rcases first_three _ h3 with hf | hf | hf <;>
        (unfold DecodeRuneInString; simp only [hf]; rfl)
    · left
      rcases first_three _ h3 with hf | hf | hf <;>
        (unfold DecodeRuneInString; simp only [hf]; simp [acceptRanges])
    · have e : ∃ lo hi, 0x80 ≤ lo ∧ hi ≤ 0xBF ∧ DecodeRuneInString (b :: s1 :: s2 :: t2) =
          if s1.val < lo ∨ hi < s1.val then (RuneError, 1)
          else if s2.val < 0x80 ∨ 0xBF < s2.val then (RuneError, 1)
          else ((b.val % 16) * 4096 + (s1.val % 64) * 64 + s2.val % 64, 3) := by
        rcases first_three _ h3 with hf | hf | hf
        · refine ⟨0xA0, 0xBF, by omega, by omega, ?_⟩
          unfold DecodeRuneInString; simp only [hf]; simp [acceptRanges]
        · refine ⟨0x80, 0xBF, by omega, by omega, ?_⟩
          unfold DecodeRuneInString; simp only [hf]; simp [acceptRanges]
        · refine ⟨0x80, 0x9F, by omega, by omega, ?_⟩
          unfold DecodeRuneInString; simp only [hf]; simp [acceptRanges]
      obtain ⟨lo, hi, hlo, hhi, e⟩ := e
      by_cases hs1 : s1.val < lo ∨ hi < s1.val
      · left; rw [e, if_pos hs1]
      by_cases hs2 : s2.val < 0x80 ∨ 0xBF < s2.val
      · left; rw [e, if_neg hs1, if_pos hs2]
      right; right; left
      refine ⟨s1, s2, t2, rfl, by omega, by omega, by omega, by omega, by omega, by omega, ?_⟩
      rw [e, if_neg hs1, if_neg hs2]
  · have h4 : 0xF0 ≤ b.val ∧ b.val ≤ 0xF4 := by omega
    rcases t with _ | ⟨s1, _ | ⟨s2, _ | ⟨s3, t3⟩⟩⟩
    · left
      rcases first_four _ h4 with hf | hf | hf <;>
        (unfold DecodeRuneInString; simp only [hf.1]; rfl)
    · left
      rcases first_four _ h4 with hf | hf | hf <;>
        (unfold DecodeRuneInString; simp only [hf.1]; simp [acceptRanges])
    · left
      rcases first_four _ h4 with hf | hf | hf <;>
        (unfold DecodeRuneInString; simp only [hf.1]; simp [acceptRanges])
    · have e : ∃ lo hi, 0x80 ≤ lo ∧ hi ≤ 0xBF ∧ (b.val = 0xF0 → 0x90 ≤ lo) ∧
          DecodeRuneInString (b :: s1 :: s2 :: s3 :: t3) =
          if s1.val < lo ∨ hi < s1.val then (RuneError, 1)
          else if s2.val < 0x80 ∨ 0xBF < s2.val then (RuneError, 1)
          else if s3.val < 0x80 ∨ 0xBF < s3.val then (RuneError, 1)
          else ((b.val % 8) * 262144 + (s1.val % 64) * 4096
                      + (s2.val % 64) * 64 + s3.val % 64, 4) := by
        rcases first_four _ h4 with hf | hf | hf
        · refine ⟨0x90, 0xBF, by omega, by omega, by omega, ?_⟩
          unfold DecodeRuneInString; simp only [hf.1]; simp [acceptRanges]
        · refine ⟨0x80, 0xBF, by omega, by omega, by omega, ?_⟩
          unfold DecodeRuneInString; simp only [hf.1]; simp [acceptRanges]
        · refine ⟨0x80, 0x8F, by omega, by omega, by omega, ?_⟩
          unfold DecodeRuneInString; simp only [hf.1]; simp [acceptRanges]
      obtain ⟨lo, hi, hlo, hhi, hf0, e⟩ := e
      by_cases hs1 : s1.val < lo ∨ hi < s1.val
      · left; rw [e, if_pos hs1]
      by_cases hs2 : s2.val < 0x80 ∨ 0xBF < s2.val
      · left; rw [e, if_neg hs1, if_pos hs2]
      by_cases hs3 : s3.val < 0x80 ∨ 0xBF < s3.val
      · left; rw [e, if_neg hs1, if_neg hs2, if_pos hs3]
      right; right; right
      refine ⟨s1, s2, s3, t3, rfl, by omega, by omega, by omega, ?_, ?_⟩
      · rw [e, if_neg hs1, if_neg hs2, if_neg hs3]
      · rw [e, if_neg hs1, if_neg hs2, if_neg hs3]
        show 65536 ≤ _
        omega

/-! ## Decoding what the string encoder writes -/

theorem unhex_hex (i : Nat) (h : i < 16) : unhex (hex i).val = some i := by
  unfold hex
  by_cases h1 : i < 10
  · rw [if_pos h1]
    have e : (Fin.ofNat (0x30 + i) : Byte).val = 0x30 + i := by
      simp [Fin.ofNat]; omega
    rw [e]; unfold unhex
    rw [if_pos (by omega)]; simp
  · rw [if_neg h1]
    have e : (Fin.ofNat (0x61 + (i - 10)) : Byte).val = 0x61 + (i - 10) := by
      simp [Fin.ofNat]; omega
    rw [e]; unfold unhex
    rw [if_neg (by omega), if_pos (by omega)]; simp; omega

theorem unquote_plain (b : Byte) (X : GoString) (h1 : b.val ≠ 0x22) (h2 : b.val ≠ 0x5C)
    (h3 : 0x20 ≤ b.val) :
    unquoteLoop (b :: X) = (unquoteLoop X).map (fun p => (b :: p.1, p.2)) := by
  rw [unquoteLoop.eq_def]
  simp only
  rw [if_neg h1, if_neg h2, if_neg (by omega)]

theorem unquote_u (q u h1 h2 h3 h4 : Byte) (X : GoString) (d1 d2 d3 d4 : Nat)
    (hq : q.val = 0x5C) (hu : u.val = 0x75)
    (e1 : unhex h1.val = some d1) (e2 : unhex h2.val = some d2)
    (e3 : unhex h3.val = some d3) (e4 : unhex h4.val = some d4) :
    unquoteLoop (q :: u :: h1 :: h2 :: h3 :: h4 :: X)
      = (unquoteLoop X).map
          (fun p => (encodeRune (d1 * 4096 + d2 * 256 + d3 * 16 + d4) ++ p.1, p.2)) := by
  rw [unquoteLoop.eq_def]
  simp only
  rw [if_neg (by omega), if_pos hq, if_pos hu]
  simp only [e1, e2, e3, e4]

theorem unquote_short (q e c : Byte) (X : GoString) (hq : q.val = 0x5C) (h : e.val ≠ 0x75)
    (hc : unescape e.val = some c) :
    unquoteLoop (q :: e :: X) = (unquoteLoop X).map (fun p => (c :: p.1, p.2)) := by
  rw [unquoteLoop.eq_def]
  simp only
  rw [if_neg (by omega), if_pos hq, if_neg h]
  simp only [hc]

theorem unquote_escape (b : Byte) (X : GoString) (hb : b.val < 0x80) :
    unquoteLoop (escapeByte b ++ X) = (unquoteLoop X).map (fun p => (b :: p.1, p.2)) := by
  unfold escapeByte
  by_cases c1 : b.val = 0x5C ∨ b.val = 0x22
  · rw [if_pos c1]
    have hu : unescape b.val = some b := by
      rcases c1 with c | c
      · have : b = 0x5C := Fin.ext c
        subst this; rfl
      · have : b = 0x22 := Fin.ext c
        subst this; rfl
    exact unquote_short 0x5C b b X rfl (by omega) hu
  rw [if_neg c1]
  by_cases c2 : b.val = 0x0A
  · rw [if_pos c2]
    have : b = 0x0A := Fin.ext c2
    subst this
    exact unquote_short 0x5C 0x6E 0x0A X rfl (by decide) rfl
  rw [if_neg c2]
  by_cases c3 : b.val = 0x0D
  · rw [if_pos c3]
    have : b = 0x0D := Fin.ext c3
    subst this
    exact unquote_short 0x5C 0x72 0x0D X rfl (by decide) rfl
  rw [if_neg c3]
  by_cases c4 : b.val = 0x09
  · rw [if_pos c4]
    have : b = 0x09 := Fin.ext c4
    subst this
    exact unquote_short 0x5C 0x74 0x09 X rfl (by decide) rfl
  rw [if_neg c4]
  have := unquote_u 0x5C 0x75 0x30 0x30 (hex (b.val / 16)) (hex (b.val % 16)) X 0 0 (b.val / 16)
    (b.val % 16) rfl rfl rfl rfl (unhex_hex _ (by omega)) (unhex_hex _ (by omega))
  have e : 0 * 4096 + 0 * 256 + b.val / 16 * 16 + b.val % 16 = b.val := by omega
  rw [e] at this
  have e2 : encodeRune b.val = [b] := by
    unfold encodeRune
    rw [if_pos hb, ofNat_val]
  rw [e2] at this
  exact this

theorem stringLoop_nil (fuel : Nat) : stringLoop fuel [] = [] := by
  cases fuel <;> rfl

theorem stringLoop_safe (f : Nat) (b : Byte) (t : GoString) (hb : b.val < 0x80)
    (hs : htmlSafeSet b.val = true) : stringLoop (f + 1) (b :: t) = b :: stringLoop f t := by
  rw [stringLoop, if_pos hb, if_pos hs]

theorem stringLoop_escaped (f : Nat) (b : Byte) (t : GoString) (hb : b.val < 0x80)
    (hs : htmlSafeSet b.val = false) :
    stringLoop (f + 1) (b :: t) = escapeByte b ++ stringLoop f t := by
  rw [stringLoop, if_pos hb, if_neg (by simp [hs])]

theorem stringLoop_copy (f : Nat) (b : Byte) (t : GoString) (hb : 0x80 ≤ b.val)
    (h1 : ¬((DecodeRuneInString (b :: t)).1 = RuneError ∧ (DecodeRuneInString (b :: t)).2 = 1))
    (h2 : ¬((DecodeRuneInString (b :: t)).1 = 0x2028 ∨ (DecodeRuneInString (b :: t)).1 = 0x2029)) :
    stringLoop (f + 1) (b :: t)
      = (b :: t).take (DecodeRuneInString (b :: t)).2
          ++ stringLoop f ((b :: t).drop (DecodeRuneInString (b :: t)).2) := by
  rw [stringLoop, if_neg (by omega)]
  simp only
  rw [if_neg h1, if_neg h2]

theorem stringLoop_sep (f : Nat) (b : Byte) (t : GoString) (hb : 0x80 ≤ b.val)
    (h1 : ¬((DecodeRuneInString (b :: t)).1 = RuneError ∧ (DecodeRuneInString (b :: t)).2 = 1))
    (h2 : (DecodeRuneInString (b :: t)).1 = 0x2028 ∨ (DecodeRuneInString (b :: t)).1 = 0x2029) :
    stringLoop (f + 1) (b :: t)
      = lit "\\u202" ++ hex ((DecodeRuneInString (b :: t)).1 % 16)
          :: stringLoop f ((b :: t).drop (DecodeRuneInString (b :: t)).2) := by
  rw [stringLoop, if_neg (by omega)]
  simp only
  rw [if_neg h1, if_pos h2]

theorem decode_width (b : Byte) (t : GoString) (hb : 0x80 ≤ b.val) :
    1 ≤ (DecodeRuneInString (b :: t)).2 := by
  rcases decode_cases b t hb with h | ⟨_, _, _, _, hw, _⟩
      | ⟨_, _, _, _, _, _, _, _, _, _, hd⟩ | ⟨_, _, _, _, _, _, _, _, hw, _⟩
  · rw [h]
  · omega
  · rw [hd]; simp
  · omega

/-- The fuel `jsonString` gives the encoder loop is enough: any fuel from the
length of the string on gives the same text. -/
theorem stringLoop_fuel : ∀ (n : Nat) (s : GoString), s.length ≤ n →
    ∀ f1 f2, s.length ≤ f1 → s.length ≤ f2 → stringLoop f1 s = stringLoop f2 s := by
  intro n
  induction n with
  | zero =>
    intro s hs f1 f2 _ _
    have : s = [] := List.eq_nil_of_length_eq_zero (by omega)
    subst this
    rw [stringLoop_nil, stringLoop_nil]
  | succ n ih =>
    intro s hs f1 f2 h1 h2
    cases s with
    | nil => rw [stringLoop_nil, stringLoop_nil]
    | cons b t =>
      simp only [List.length_cons] at hs h1 h2
      obtain ⟨g1, rfl⟩ : ∃ g, f1 = g + 1 := ⟨f1 - 1, by omega⟩
      obtain ⟨g2, rfl⟩ : ∃ g, f2 = g + 1 := ⟨f2 - 1, by omega⟩
      have iht := ih t (by omega) g1 g2 (by omega) (by omega)
      by_cases hb : b.val < 0x80
      · rw [stringLoop, stringLoop, if_pos hb, if_pos hb, iht]
      · have hw := decode_width b t (by omega)
        have ihd := ih ((b :: t).drop (DecodeRuneInString (b :: t)).2)
          (by simp only [List.length_drop, List.length_cons]; omega) g1 g2
          (by simp only [List.length_drop, List.length_cons]; omega)
          (by simp only [List.length_drop, List.length_cons]; omega)
        rw [stringLoop, stringLoop, if_neg hb, if_neg hb]
        simp only
        rw [iht, ihd]

theorem htmlSafeSet_bounds (b : Nat) (h : htmlSafeSet b = true) :
    b ≠ 0x22 ∧ b ≠ 0x5C ∧ 0x20 ≤ b := by
  simp [htmlSafeSet] at h
  omega

theorem unquote_close (q : Byte) (X : GoString) (hq : q.val = 0x22) :
    unquoteLoop (q :: X) = some ([], X) := by
  rw [unquoteLoop.eq_def]
  simp only
  rw [if_pos hq]

/-- Decoding undoes the string encoder on valid UTF-8: the body the encoder
writes for `s`, followed by the closing quote and any text `X`, is read back as
`s` with `X` left over. -/
theorem unquote_stringLoop : ∀ (n : Nat) (s : GoString), validLoop n s = true →
    ∀ fuel, s.length ≤ fuel → ∀ X : GoString,
      unquoteLoop (stringLoop fuel s ++ 0x22 :: X) = some (s, X) := by
  intro n
  induction n with
  | zero =>
    intro s hv fuel _ X
    cases s with
    | nil => rw [stringLoop_nil]; exact unquote_close _ X rfl
    | cons b t => simp [validLoop] at hv
  | succ n ih =>
    intro s hv fuel hf X
    cases s with
    | nil => rw [stringLoop_nil]; exact unquote_close _ X rfl
    | cons b t =>
      obtain ⟨f, rfl⟩ : ∃ f, fuel = f + 1 := ⟨fuel - 1, by simp at hf; omega⟩
      have hft : t.length ≤ f := by simp at hf; omega
      rw [validLoop] at hv
      by_cases hb : b.val < 0x80
      · rw [decode_ascii b t hb] at hv
        have hvt : validLoop n t = true := by
          have := hv
          simp [RuneError] at this
          exact this.2
        have IH := ih t hvt f hft X
        by_cases hs : htmlSafeSet b.val = true
        · obtain ⟨a1, a2, a3⟩ := htmlSafeSet_bounds _ hs
          rw [stringLoop_safe f b t hb hs, List.cons_append, unquote_plain b _ a1 a2 a3, IH]
          rfl
        · have hs2 : htmlSafeSet b.val = false := by simpa using hs
          rw [stringLoop_escaped f b t hb hs2, List.append_assoc, unquote_escape b _ hb, IH]
          rfl
      · have hb2 : 0x80 ≤ b.val := by omega
        have hbl := b.isLt
        by_cases herr : (DecodeRuneInString (b :: t)).1 = RuneError
            ∧ (DecodeRuneInString (b :: t)).2 = 1
        · rw [if_pos herr] at hv
          exact absurd hv (by simp)
        rw [if_neg herr] at hv
        rcases decode_cases b t hb2 with h | ⟨s1, t1, rfl, hs1, hw, hr⟩
            | ⟨s1, s2, t2, rfl, hs1, hs2, hs1u, hs2u, hbl3, hbu3, hd⟩
            | ⟨s1, s2, s3, t3, rfl, hs1, hs2, hs3, hw, hr⟩
        · rw [h] at herr
          exact absurd ⟨rfl, rfl⟩ herr
        · have hne : ¬((DecodeRuneInString (b :: s1 :: t1)).1 = 0x2028
              ∨ (DecodeRuneInString (b :: s1 :: t1)).1 = 0x2029) := by omega
          rw [stringLoop_copy f b _ hb2 herr hne, hw]
          rw [hw] at hv
          have IH := ih t1 hv f (by simp at hft; omega) X
          show unquoteLoop (b :: s1 :: (stringLoop f t1 ++ 0x22 :: X)) = _
          rw [unquote_plain b _ (by omega) (by omega) (by omega),
            unquote_plain s1 _ (by omega) (by omega) (by omega), IH]
          rfl
        · rw [hd] at hv
          have IH := ih t2 hv f (by simp at hft; omega) X
          by_cases hsep : (DecodeRuneInString (b :: s1 :: s2 :: t2)).1 = 0x2028
              ∨ (DecodeRuneInString (b :: s1 :: s2 :: t2)).1 = 0x2029
          · rw [stringLoop_sep f b _ hb2 herr hsep, hd]
            rw [hd] at hsep
            have hs1l := s1.isLt
            have hs2l := s2.isLt
            have e1 : b = 0xE2 := Fin.ext (by
              show b.val = 0xE2
              simp only at hsep; omega)
            have e2 : s1 = 0x80 := Fin.ext (by
              show s1.val = 0x80
              simp only at hsep; omega)
            subst e1 e2
            show unquoteLoop (0x5C :: 0x75 :: 0x32 :: 0x30 :: 0x32 :: hex _ ::
              (stringLoop f t2 ++ 0x22 :: X)) = _
            rcases hsep with hsep | hsep
            · have e3 : s2 = 0xA8 := Fin.ext (by
                show s2.val = 0xA8
                simp only at hsep
                have : ((0xE2 : Byte).val = 0xE2) := rfl
                have : ((0x80 : Byte).val = 0x80) := rfl
                omega)
              subst e3
              show unquoteLoop (0x5C :: 0x75 :: 0x32 :: 0x30 :: 0x32 :: 0x38 ::
                (stringLoop f t2 ++ 0x22 :: X)) = _
              rw [unquote_u 0x5C 0x75 0x32 0x30 0x32 0x38 _ 2 0 2 8 rfl rfl rfl rfl rfl rfl, IH]
              rfl
            · have e3 : s2 = 0xA9 := Fin.ext (by
                show s2.val = 0xA9
                simp only at hsep
                have : ((0xE2 : Byte).val = 0xE2) := rfl
                have : ((0x80 : Byte).val = 0x80) := rfl
                omega)
              subst e3
              show unquoteLoop (0x5C :: 0x75 :: 0x32 :: 0x30 :: 0x32 :: 0x39 ::
                (stringLoop f t2 ++ 0x22 :: X)) = _
              rw [unquote_u 0x5C 0x75 0x32 0x30 0x32 0x39 _ 2 0 2 9 rfl rfl rfl rfl rfl rfl, IH]
              rfl
          · rw [stringLoop_copy f b _ hb2 herr hsep, hd]
            show unquoteLoop (b :: s1 :: s2 :: (stringLoop f t2 ++ 0x22 :: X)) = _
            rw [unquote_plain b _ (by omega) (by omega) (by omega),
              unquote_plain s1 _ (by omega) (by omega) (by omega),
              unquote_plain s2 _ (by omega) (by omega) (by omega), IH]
            rfl
        · have hne : ¬((DecodeRuneInString (b :: s1 :: s2 :: s3 :: t3)).1 = 0x2028
              ∨ (DecodeRuneInString (b :: s1 :: s2 :: s3 :: t3)).1 = 0x2029) := by omega
          rw [stringLoop_copy f b _ hb2 herr hne, hw]
          rw [hw] at hv
          have IH := ih t3 hv f (by simp at hft; omega) X
          show unquoteLoop (b :: s1 :: s2 :: s3 :: (stringLoop f t3 ++ 0x22 :: X)) = _
          rw [unquote_plain b _ (by omega) (by omega) (by omega),
            unquote_plain s1 _ (by omega) (by omega) (by omega),
            unquote_plain s2 _ (by omega) (by omega) (by omega),
            unquote_plain s3 _ (by omega) (by omega) (by omega), IH]
          rfl

/-! ## The history loop -/

theorem iterCalls_succ (n : Nat) :
    iterCalls (n + 1) = [Call.HasNext, Call.Next] ++ iterCalls n := rfl

/-- The loop over an iterator that yields `recs` and is then exhausted. -/
theorem loop_ok {σ : Type} (verbs : GoString → GoString) (recs : List KeyModification) :
    ∀ (resp : getHistoryOfState.returnValues) (w : World σ),
      getHistoryOfState.loop verbs (recs.map .ok) resp w
        = (.ok { NumberOfTransactions := resp.NumberOfTransactions + recs.length
                 AssetName := resp.AssetName
                 History := recs.foldl (fun s km => sliceAppend s (historyOf km)) resp.History },
            { ledger := w.ledger
              calls := w.calls ++ iterCalls recs.length ++ [Call.HasNext] }) := by
  induction recs with
  | nil =>
    intro resp w
    simp [getHistoryOfState.loop, iterCalls]
  | cons km rest ih =>
    intro resp w
    simp only [List.map_cons, getHistoryOfState.loop, ih, List.foldl_cons, List.length_cons,
      iterCalls_succ, List.append_assoc]
    simp [historyOf]
    omega

/-- The loop over an iterator that yields `recs` and then fails with `err`. -/
theorem loop_error {σ : Type} (verbs : GoString → GoString) (recs : List KeyModification)
    (err : GoString) (rest : HistoryQueryIterator) :
    ∀ (resp : getHistoryOfState.returnValues) (w : World σ),
      getHistoryOfState.loop verbs (recs.map .ok ++ .error err :: rest) resp w
        = (.error (Sprintf0 verbs (lit "Error in reading history record" ++ err)),
            { ledger := w.ledger, calls := w.calls ++ iterCalls (recs.length + 1) }) := by
  induction recs with
  | nil =>
    intro resp w
    simp [getHistoryOfState.loop, iterCalls]
  | cons km more ih =>
    intro resp w
    rw [List.map_cons, List.cons_append, getHistoryOfState.loop, ih]
    simp [iterCalls]

theorem foldl_sliceAppend {α : Type} (xs : List α) :
    ∀ s : Option (List α), ((xs.foldl sliceAppend s).getD []) = s.getD [] ++ xs := by
  induction xs with
  | nil => intro s; simp
  | cons x rest ih =>
    intro s
    rw [List.foldl_cons, ih]
    cases s <;> simp [sliceAppend]

theorem foldl_history (recs : List KeyModification) (s : Option (List getHistoryOfState.history)) :
    ((recs.foldl (fun s km => sliceAppend s (historyOf km)) s).getD [])
      = s.getD [] ++ recs.map historyOf := by
  have := foldl_sliceAppend (recs.map historyOf) s
  rw [List.foldl_map] at this
  exact this

theorem Close_not_mem_iterCalls (n : Nat) : Call.Close ∉ iterCalls n := by
  induction n with
  | zero => simp [iterCalls]
  | succ n ih => simp [iterCalls, ih]

/-- What `getHistoryOfState` returns over an iterator that yields `recs`
and is then exhausted. -/
theorem getHistoryOfState_ok {σ : Type} (verbs : GoString → GoString) (stub : ChaincodeStub σ)
    (key : GoString) (more : List GoString) (recs : List KeyModification) (w : World σ)
    (hopen : stub.GetHistoryForKey key w.ledger = .ok (recs.map .ok)) :
    getHistoryOfState verbs stub (key :: more) w
      = ((getHistoryOfState.Marshal
            { NumberOfTransactions := recs.length
              AssetName := key
              History := recs.foldl (fun s km => sliceAppend s (historyOf km)) none }, none),
          { ledger := w.ledger
            calls := w.calls ++ [Call.GetHistoryForKey key] ++ iterCalls recs.length
              ++ [Call.HasNext, Call.Close] }) := by
  simp [getHistoryOfState, callGetHistoryForKey, hopen, loop_ok]

/-- What `getHistoryOfState` returns over an iterator that yields `recs` and
then fails with `err`. -/
theorem getHistoryOfState_error {σ : Type} (verbs : GoString → GoString)
    (stub : ChaincodeStub σ) (key : GoString) (more : List GoString)
    (recs : List KeyModification) (err : GoString) (rest : HistoryQueryIterator) (w : World σ)
    (hopen : stub.GetHistoryForKey key w.ledger = .ok (recs.map .ok ++ .error err :: rest)) :
    getHistoryOfState verbs stub (key :: more) w
      = (([], some (Sprintf0 verbs (lit "Error in reading history record" ++ err))),
          { ledger := w.ledger
            calls := w.calls ++ [Call.GetHistoryForKey key] ++ iterCalls (recs.length + 1) }) := by
  simp [getHistoryOfState, callGetHistoryForKey, hopen, loop_error]

set_option maxRecDepth 8192 in
theorem read_error_text_plain :
    ∀ d ∈ lit "Error in reading history record", d.val ≠ 0x25 := by
  decide

theorem Sprintf0_plain (verbs : GoString → GoString) (s : GoString)
    (h : ∀ c ∈ s, c.val ≠ 0x25) : Sprintf0 verbs s = s := by
  induction s with
  | nil => rfl
  | cons c rest ih =>
    rw [Sprintf0, if_neg (h c (by simp)), ih (fun d hd => h d (by simp [hd]))]

/-! ## `strconv.Atoi` on text that does not parse -/

theorem ParseInt_error (s : GoString) :
    ((ParseInt s).2 = some .ErrSyntax → (ParseInt s).1 = 0)
    ∧ ((ParseInt s).2 = some .ErrRange →
        (ParseInt s).1 = 2 ^ 63 - 1 ∨ (ParseInt s).1 = -(2 ^ 63)) := by
  unfold ParseInt
  cases s with
  | nil => simp
  | cons c rest =>
    simp only
    split_ifs <;> simp [intSize]

theorem Atoi_error (s : GoString) :
    ((Atoi s).2 = some .ErrSyntax → (Atoi s).1 = 0)
    ∧ ((Atoi s).2 = some .ErrRange → (Atoi s).1 = 2 ^ 63 - 1 ∨ (Atoi s).1 = -(2 ^ 63)) := by
  unfold Atoi
  by_cases h : 0 < s.length ∧ s.length < 19
  · rw [if_pos h]
    cases s with
    | nil => simp
    | cons c rest =>
      simp only
      generalize (if c.val = 0x2D ∨ c.val = 0x2B then rest else c :: rest) = digits
      by_cases hl : digits.length < 1
      · rw [if_pos hl]; simp
      · rw [if_neg hl]
        cases atoiFastLoop digits 0 <;> simp
  · rw [if_neg h]
    exact ParseInt_error s

/-! ## The payload of `get` read back -/

theorem expect_append (p s : GoString) : expect p (p ++ s) = some s := by
  induction p with
  | nil => cases s <;> rfl
  | cons a p ih => simp [expect, ih]

theorem validLoop_of_valid (s : GoString) (h : ValidString s = true) :
    validLoop s.length s = true := h

/-- Decoding the payload `get` builds from a valid UTF-8 key and value gives
them back. -/
theorem decode_get_Marshal (key value : GoString) (hk : ValidString key = true)
    (hv : ValidString value = true) :
    decodeGetPayload (get.Marshal { Key := key, Value := value }) = some (key, value) := by
  have shape : get.Marshal { Key := key, Value := value }
      = lit "\x7b\"key\":\"" ++ (stringLoop key.length key ++ 0x22 ::
          (lit ",\"value\":\"" ++ (stringLoop value.length value ++ 0x22 :: lit "\x7d"))) := by
    simp [get.Marshal, jsonString, lit]
    rfl
  rw [shape, decodeGetPayload, expect_append]
  simp only [Option.bind]
  rw [unquote_stringLoop key.length key hk key.length (le_refl _)]
  simp only
  rw [expect_append]
  simp only
  rw [unquote_stringLoop value.length value hv value.length (le_refl _)]
  simp



/-! ## Frame and first-argument facts -/

theorem Sprintf0_head (verbs : GoString → GoString) (c : Byte) (s : GoString)
    (h : c.val ≠ 0x25) : (Sprintf0 verbs (c :: s)).head? = some c := by
  rw [Sprintf0, if_neg h]
  rfl

/-- The loop leaves the ledger as it was and makes no `PutState`. -/
theorem loop_frame {σ : Type} (verbs : GoString → GoString) (it : HistoryQueryIterator) :
    ∀ (resp : getHistoryOfState.returnValues) (w : World σ),
      (getHistoryOfState.loop verbs it resp w).2.ledger = w.ledger
      ∧ ∃ new, (getHistoryOfState.loop verbs it resp w).2.calls = w.calls ++ new
          ∧ ∀ c ∈ new, c.isPut = false := by
  induction it with
  | nil =>
    intro resp w
    exact ⟨rfl, [Call.HasNext], rfl, by decide⟩
  | cons r rest ih =>
    intro resp w
    cases r with
    | error e => exact ⟨rfl, [Call.HasNext, Call.Next], rfl, by decide⟩
    | ok km =>
      rw [getHistoryOfState.loop]
      obtain ⟨h1, new, h2, h3⟩ := ih
        { resp with
          NumberOfTransactions := resp.NumberOfTransactions + 1
          History := sliceAppend resp.History
            { TxID := km.TxId, Value := (Atoi km.Value).1, IsDelete := km.IsDelete } }
        { w with calls := w.calls ++ [Call.HasNext, Call.Next] }
      refine ⟨h1, [Call.HasNext, Call.Next] ++ new, ?_, ?_⟩
      · rw [h2, List.append_assoc]
      · intro c hc
        rcases List.mem_append.mp hc with hc | hc
        · have hround : ∀ d ∈ [Call.HasNext, Call.Next], d.isPut = false := by decide
          exact hround c hc
        · exact h3 c hc

/-- The message of an error the loop returns starts with the letter `E`. -/
theorem loop_error_head {σ : Type} (verbs : GoString → GoString) (it : HistoryQueryIterator) :
    ∀ (resp : getHistoryOfState.returnValues) (w : World σ) (msg : GoString),
      (getHistoryOfState.loop verbs it resp w).1 = .error msg → msg.head? = some 0x45 := by
  induction it with
  | nil =>
    intro resp w msg h
    simp [getHistoryOfState.loop] at h
  | cons r rest ih =>
    intro resp w msg h
    cases r with
    | error e =>
      simp only [getHistoryOfState.loop, Except.error.injEq] at h
      rw [← h]
      exact Sprintf0_head verbs 0x45 (lit "rror in reading history record" ++ e) (by decide)
    | ok km =>
      rw [getHistoryOfState.loop] at h
      exact ih _ _ msg h

/-- The function `getHistoryOfState` leaves the ledger as it was and makes no
`PutState`. -/
theorem getHistoryOfState_frame {σ : Type} (verbs : GoString → GoString)
    (stub : ChaincodeStub σ) (args : List GoString) (w : World σ) :
    (getHistoryOfState verbs stub args w).2.ledger = w.ledger
    ∧ ∃ new, (getHistoryOfState verbs stub args w).2.calls = w.calls ++ new
        ∧ ∀ c ∈ new, c.isPut = false := by
  unfold getHistoryOfState
  by_cases h : args.length < 1
  · rw [if_pos h]
    exact ⟨rfl, [], by simp, by simp⟩
  · rw [if_neg h]
    simp only [callGetHistoryForKey]
    cases hopen : stub.GetHistoryForKey (args.getD 0 []) w.ledger with
    | error e =>
      exact ⟨rfl, [Call.GetHistoryForKey (args.getD 0 [])], rfl, by simp [Call.isPut]⟩
    | ok it =>
      simp only
      obtain ⟨h1, new, h2, h3⟩ := loop_frame verbs it
        { NumberOfTransactions := 0, AssetName := args.getD 0 [], History := none }
        { ledger := w.ledger, calls := w.calls ++ [Call.GetHistoryForKey (args.getD 0 [])] }
      cases hl : (getHistoryOfState.loop verbs it
        { NumberOfTransactions := 0, AssetName := args.getD 0 [], History := none }
        { ledger := w.ledger,
          calls := w.calls ++ [Call.GetHistoryForKey (args.getD 0 [])] }).1 with
      | error msg =>
        simp only
        refine ⟨h1, Call.GetHistoryForKey (args.getD 0 []) :: new, ?_, ?_⟩
        · rw [h2]; simp
        · intro c hc
          rcases List.mem_cons.mp hc with hc | hc
          · subst hc; rfl
          · exact h3 c hc
      | ok response =>
        simp only
        refine ⟨h1, Call.GetHistoryForKey (args.getD 0 []) :: (new ++ [Call.Close]), ?_, ?_⟩
        · rw [h2]; simp
        · intro c hc
          rcases List.mem_cons.mp hc with hc | hc
          · subst hc; rfl
          · rcases List.mem_append.mp hc with hc | hc
            · exact h3 c hc
            · simp only [List.mem_singleton] at hc
              subst hc; rfl

/-- The function `get` leaves the ledger as it was and makes no `PutState`. -/
theorem get_frame {σ : Type} (stub : ChaincodeStub σ) (args : List GoString) (w : World σ) :
    (get stub args w).2.ledger = w.ledger
    ∧ ∃ new, (get stub args w).2.calls = w.calls ++ new ∧ ∀ c ∈ new, c.isPut = false := by
  unfold get
  by_cases h : args.length ≠ 1
  · rw [if_pos h]
    exact ⟨rfl, [], by simp, by simp⟩
  · rw [if_neg h]
    simp only [callGetState]
    cases stub.GetState (args.getD 0 []) w.ledger with
    | error e => exact ⟨rfl, [Call.GetState (args.getD 0 [])], rfl, by simp [Call.isPut]⟩
    | ok v =>
      cases v with
      | none => exact ⟨rfl, [Call.GetState (args.getD 0 [])], rfl, by simp [Call.isPut]⟩
      | some value =>
        exact ⟨rfl, [Call.GetState (args.getD 0 [])], rfl, by simp [Call.isPut]⟩

/-! ## `strconv.Atoi` on decimal text -/

theorem atoiFastLoop_eq (s : GoString) : ∀ n, atoiFastLoop s n = digitsValue s n := by
  induction s with
  | nil => intro n; rfl
  | cons c rest ih =>
    intro n
    have hc := c.isLt
    rw [atoiFastLoop, digitsValue]
    by_cases hd : 0x30 ≤ c.val ∧ c.val ≤ 0x39
    · rw [if_neg (by omega), if_pos hd, ih]
      congr 1
      omega
    · rw [if_pos (by omega), if_neg hd]

theorem digitsValue_ge (s : GoString) : ∀ n v, digitsValue s n = some v → n ≤ v := by
  induction s with
  | nil =>
    intro n v h
    simp only [digitsValue, Option.some.injEq] at h
    omega
  | cons c rest ih =>
    intro n v h
    rw [digitsValue] at h
    by_cases hd : 0x30 ≤ c.val ∧ c.val ≤ 0x39
    · rw [if_pos hd] at h
      have := ih _ _ h
      omega
    · rw [if_neg hd] at h
      exact absurd h (by simp)

theorem parseUintLoop_eq (s : GoString) : ∀ n v, digitsValue s n = some v → v < 2 ^ 64 →
    parseUintLoop s n = (v, none) := by
  induction s with
  | nil =>
    intro n v h _
    simp only [digitsValue, Option.some.injEq] at h
    rw [parseUintLoop, h]
  | cons c rest ih =>
    intro n v h hv
    rw [digitsValue] at h
    by_cases hd : 0x30 ≤ c.val ∧ c.val ≤ 0x39
    · rw [if_pos hd] at h
      have hge := digitsValue_ge _ _ _ h
      have hv2 : v < 18446744073709551616 := by
        have : (2 : Nat) ^ 64 = 18446744073709551616 := by norm_num
        omega
      rw [parseUintLoop, if_pos hd]
      simp only [intSize]
      have e1 : (2 : Nat) ^ 64 = 18446744073709551616 := by norm_num
      rw [e1]
      have e2 : (18446744073709551616 - 1) / 10 + 1 = 1844674407370955162 := by norm_num
      rw [e2, if_neg (by omega)]
      have e3 : (n * 10 + (c.val - 0x30)) % 18446744073709551616 = n * 10 + (c.val - 0x30) :=
        Nat.mod_eq_of_lt (by omega)
      rw [e3, if_neg (by omega)]
      exact ih _ _ h (by omega)
    · rw [if_neg hd] at h
      exact absurd h (by simp)

/-- On the base-10 text of an integer that fits `int`, `strconv.Atoi` returns
that integer and no error. -/
theorem Atoi_decimal (s : GoString) (n : Int) (h : decimalValue s = some n)
    (hlo : -(2 ^ 63) ≤ n) (hhi : n ≤ 2 ^ 63 - 1) : Atoi s = (n, none) := by
  cases s with
  | nil => simp [decimalValue] at h
  | cons c rest =>
    have hlen : 0 < (c :: rest).length := by simp
    unfold decimalValue at h
    simp only at h
    unfold Atoi
    by_cases hfast : 0 < (c :: rest).length ∧ (c :: rest).length < 19
    · rw [if_pos hfast]
      simp only
      by_cases hm : c.val = 0x2D
      · rw [if_pos hm] at h
        by_cases hr : rest = []
        · rw [if_pos hr] at h; exact absurd h (by simp)
        rw [if_neg hr] at h
        rw [if_pos (Or.inl hm), if_neg (by
          cases rest with
          | nil => exact absurd rfl hr
          | cons _ _ => simp), atoiFastLoop_eq]
        cases hv : digitsValue rest 0 with
        | none => rw [hv] at h; exact absurd h (by simp)
        | some v =>
          rw [hv] at h
          simp only [Option.map_some', Option.some.injEq, Int.ofNat_eq_coe] at h
          subst h
          simp [hm]
      rw [if_neg hm] at h
      by_cases hp : c.val = 0x2B
      · rw [if_pos hp] at h
        by_cases hr : rest = []
        · rw [if_pos hr] at h; exact absurd h (by simp)
        rw [if_neg hr] at h
        rw [if_pos (Or.inr hp), if_neg (by
          cases rest with
          | nil => exact absurd rfl hr
          | cons _ _ => simp), atoiFastLoop_eq]
        cases hv : digitsValue rest 0 with
        | none => rw [hv] at h; exact absurd h (by simp)
        | some v =>
          rw [hv] at h
          simp only [Option.map_some', Option.some.injEq, Int.ofNat_eq_coe] at h
          subst h
          simp [hm]
      rw [if_neg hp] at h
      rw [if_neg (not_or.mpr ⟨hm, hp⟩), if_neg (by simp), atoiFastLoop_eq]
      cases hv : digitsValue (c :: rest) 0 with
      | none => rw [hv] at h; exact absurd h (by simp)
      | some v =>
        rw [hv] at h
        simp only [Option.map_some', Option.some.injEq, Int.ofNat_eq_coe] at h
        subst h
        simp [hm]
    · rw [if_neg hfast]
      unfold ParseInt
      simp only [intSize]
      have e63 : (2 : Nat) ^ (64 - 1) = 9223372036854775808 := by norm_num
      have i63 : (2 : Int) ^ 63 = 9223372036854775808 := by norm_num
      rw [i63] at hlo hhi
      rw [e63]
      by_cases hm : c.val = 0x2D
      · rw [if_pos hm] at h
        by_cases hr : rest = []
        · rw [if_pos hr] at h; exact absurd h (by simp)
        rw [if_neg hr] at h
        cases hv : digitsValue rest 0 with
        | none => rw [hv] at h; exact absurd h (by simp)
        | some v =>
          rw [hv] at h
          simp only [Option.map_some', Option.some.injEq, Int.ofNat_eq_coe] at h
          have hv64 : v < 2 ^ 64 := by
            have : (2 : Nat) ^ 64 = 18446744073709551616 := by norm_num
            omega
          have hu : ParseUint rest = (v, none) := by
            rw [ParseUint, if_neg hr]
            exact parseUintLoop_eq rest 0 v hv hv64
          rw [if_pos (Or.inr hm), hu]
          simp only [hm, decide_True]
          rw [if_neg (by simp), if_neg (by simp), if_neg (by
            simp only [true_and, not_lt]
            omega)]
          subst h
          simp
      rw [if_neg hm] at h
      by_cases hp : c.val = 0x2B
      · rw [if_pos hp] at h
        by_cases hr : rest = []
        · rw [if_pos hr] at h; exact absurd h (by simp)
        rw [if_neg hr] at h
        cases hv : digitsValue rest 0 with
        | none => rw [hv] at h; exact absurd h (by simp)
        | some v =>
          rw [hv] at h
          simp only [Option.map_some', Option.some.injEq, Int.ofNat_eq_coe] at h
          have hv64 : v < 2 ^ 64 := by
            have : (2 : Nat) ^ 64 = 18446744073709551616 := by norm_num
            omega
          have hu : ParseUint rest = (v, none) := by
            rw [ParseUint, if_neg hr]
            exact parseUintLoop_eq rest 0 v hv hv64
          rw [if_pos (Or.inl hp), hu]
          simp only [hm, decide_False]
          rw [if_neg (by simp), if_neg (by
            simp only [Bool.not_false, true_and, not_le]
            omega), if_neg (by simp)]
          subst h
          simp
      rw [if_neg hp] at h
      cases hv : digitsValue (c :: rest) 0 with
      | none => rw [hv] at h; exact absurd h (by simp)
      | some v =>
        rw [hv] at h
        simp only [Option.map_some', Option.some.injEq, Int.ofNat_eq_coe] at h
        have hv64 : v < 2 ^ 64 := by
          have : (2 : Nat) ^ 64 = 18446744073709551616 := by norm_num
          omega
        have hu : ParseUint (c :: rest) = (v, none) := by
          rw [ParseUint, if_neg (by simp)]
          exact parseUintLoop_eq (c :: rest) 0 v hv hv64
        rw [if_neg (not_or.mpr ⟨hp, hm⟩), hu]
        simp only [hm, decide_False]
        rw [if_neg (by simp), if_neg (by
          simp only [Bool.not_false, true_and, not_le]
          omega), if_neg (by simp)]
        subst h
        simp

theorem digitsValue_append (a b : GoString) : ∀ n,
    digitsValue (a ++ b) n = (digitsValue a n).bind (fun m => digitsValue b m) := by
  induction a with
  | nil => intro n; rfl
  | cons c rest ih =>
    intro n
    rw [List.cons_append, digitsValue, digitsValue]
    by_cases hd : 0x30 ≤ c.val ∧ c.val ≤ 0x39
    · rw [if_pos hd, if_pos hd, ih]
    · rw [if_neg hd, if_neg hd]; rfl

theorem digit_val (d : Nat) (h : d < 10) : (Fin.ofNat (0x30 + d) : Byte).val = 0x30 + d := by
  simp [Fin.ofNat]
  omega

/-- The digits `strconv` writes for `n` denote `n`. -/
theorem digitsValue_digitsLoop : ∀ (fuel n : Nat), n ≤ fuel →
    digitsValue (digitsLoop fuel n) 0 = some n := by
  intro fuel
  induction fuel with
  | zero =>
    intro n h
    have : n = 0 := by omega
    subst this
    rfl
  | succ fuel ih =>
    intro n h
    rw [digitsLoop]
    by_cases h0 : n = 0
    · rw [if_pos h0, h0]; rfl
    · rw [if_neg h0, digitsValue_append, ih (n / 10) (by omega)]
      simp only [Option.bind]
      rw [digitsValue, digit_val _ (Nat.mod_lt _ (by omega)), if_pos (by omega), digitsValue]
      congr 1
      omega

theorem digitsLoop_digits : ∀ (fuel n : Nat), ∀ c ∈ digitsLoop fuel n,
    0x30 ≤ c.val ∧ c.val ≤ 0x39 := by
  intro fuel
  induction fuel with
  | zero => intro n c hc; simp [digitsLoop] at hc
  | succ fuel ih =>
    intro n c hc
    rw [digitsLoop] at hc
    by_cases h0 : n = 0
    · rw [if_pos h0] at hc; simp at hc
    · rw [if_neg h0] at hc
      rcases List.mem_append.mp hc with hc | hc
      · exact ih _ c hc
      · simp only [List.mem_singleton] at hc
        rw [hc, digit_val _ (Nat.mod_lt _ (by omega))]
        omega

theorem digitsLoop_ne_nil (n : Nat) (h : n ≠ 0) : digitsLoop n n ≠ [] := by
  obtain ⟨m, rfl⟩ : ∃ m, n = m + 1 := ⟨n - 1, by omega⟩
  rw [digitsLoop, if_neg h]
  simp

/-- The text `strconv` writes for an integer denotes that integer. -/
theorem decimalValue_formatInt (n : Int) : decimalValue (formatInt n) = some n := by
  unfold formatInt
  by_cases h0 : n = 0
  · rw [if_pos h0, h0]; rfl
  rw [if_neg h0]
  have habs : n.natAbs ≠ 0 := by omega
  have hval := digitsValue_digitsLoop n.natAbs n.natAbs (le_refl _)
  have hne := digitsLoop_ne_nil n.natAbs habs
  by_cases hneg : n < 0
  · rw [if_pos hneg, decimalValue]
    rw [if_pos (show ((0x2D : Byte).val = 0x2D) from rfl), if_neg hne, hval]
    simp only [Option.map_some', Option.some.injEq, Int.ofNat_eq_coe]
    omega
  · rw [if_neg hneg]
    cases hl : digitsLoop n.natAbs n.natAbs with
    | nil => exact absurd hl hne
    | cons c rest =>
      have hc := digitsLoop_digits n.natAbs n.natAbs c (by rw [hl]; simp)
      rw [decimalValue]
      rw [if_neg (by omega), if_neg (by omega), ← hl, hval]
      simp only [Option.map_some', Option.some.injEq, Int.ofNat_eq_coe]
      omega

theorem foldl_sliceAppend_some {α : Type} (xs : List α) :
    ∀ l : List α, xs.foldl sliceAppend (some l) = some (l ++ xs) := by
  induction xs with
  | nil => intro l; simp
  | cons x rest ih =>
    intro l
    rw [List.foldl_cons, sliceAppend, ih]
    simp

/-- The slice the loop builds from `nil`: still `nil` when there is no
record, the entries of the records in order otherwise. -/
theorem foldl_history_none (recs : List KeyModification) :
    recs.foldl (fun s km => sliceAppend s (historyOf km)) none
      = if recs = [] then none else some (recs.map historyOf) := by
  have h := List.foldl_map historyOf sliceAppend recs (none : Option (List _))
  rw [← h]
  cases recs with
  | nil => rfl
  | cons km rest =>
    rw [if_neg (by simp), List.map_cons, List.foldl_cons]
    show List.foldl sliceAppend (some [historyOf km]) (List.map historyOf rest) = _
    rw [foldl_sliceAppend_some]
    rfl

/-! ## Decoding what the string encoder writes, for any string -/

theorem coerceLoop_nil (fuel : Nat) : coerceLoop fuel [] = [] := by
  cases fuel <;> rfl

/-- One multi-byte rune: the encoder writes a text, then goes on with the rest
of the string, and the decoder reads that text as the bytes of the rune. -/
theorem stringLoop_rune (f : Nat) (b : Byte) (t : GoString) (hb : 0x80 ≤ b.val)
    (herr : ¬((DecodeRuneInString (b :: t)).1 = RuneError
      ∧ (DecodeRuneInString (b :: t)).2 = 1)) :
    ∃ E : GoString,
      stringLoop (f + 1) (b :: t)
        = E ++ stringLoop f ((b :: t).drop (DecodeRuneInString (b :: t)).2)
      ∧ ∀ Z : GoString, unquoteLoop (E ++ Z)
          = (unquoteLoop Z).map
              (fun p => ((b :: t).take (DecodeRuneInString (b :: t)).2 ++ p.1, p.2)) := by
  have hbl := b.isLt
  rcases decode_cases b t hb with h | ⟨s1, t1, rfl, hs1, hw, hr⟩
      | ⟨s1, s2, t2, rfl, hs1, hs2, hs1u, hs2u, hbl3, hbu3, hd⟩
      | ⟨s1, s2, s3, t3, rfl, hs1, hs2, hs3, hw, hr⟩
  · rw [h] at herr
    exact absurd ⟨rfl, rfl⟩ herr
  · have hne : ¬((DecodeRuneInString (b :: s1 :: t1)).1 = 0x2028
        ∨ (DecodeRuneInString (b :: s1 :: t1)).1 = 0x2029) := by omega
    refine ⟨[b, s1], ?_, ?_⟩
    · rw [stringLoop_copy f b _ hb herr hne, hw]; rfl
    · intro Z
      rw [hw]
      show unquoteLoop (b :: s1 :: Z) = _
      rw [unquote_plain b _ (by omega) (by omega) (by omega),
        unquote_plain s1 _ (by omega) (by omega) (by omega)]
      cases unquoteLoop Z <;> rfl
  · by_cases hsep : (DecodeRuneInString (b :: s1 :: s2 :: t2)).1 = 0x2028
        ∨ (DecodeRuneInString (b :: s1 :: s2 :: t2)).1 = 0x2029
    · have hstep := stringLoop_sep f b _ hb herr hsep
      rw [hd] at hsep hstep
      rw [hd]
      have hs1l := s1.isLt
      have hs2l := s2.isLt
      have e1 : b = 0xE2 := Fin.ext (by
        show b.val = 0xE2
        simp only at hsep; omega)
      have e2 : s1 = 0x80 := Fin.ext (by
        show s1.val = 0x80
        simp only at hsep; omega)
      subst e1 e2
      rcases hsep with hsep | hsep
      · have e3 : s2 = 0xA8 := Fin.ext (by
          show s2.val = 0xA8
          simp only at hsep
          have : ((0xE2 : Byte).val = 0xE2) := rfl
          have : ((0x80 : Byte).val = 0x80) := rfl
          omega)
        subst e3
        refine ⟨[0x5C, 0x75, 0x32, 0x30, 0x32, 0x38], hstep, ?_⟩
        intro Z
        show unquoteLoop (0x5C :: 0x75 :: 0x32 :: 0x30 :: 0x32 :: 0x38 :: Z) = _
        rw [unquote_u 0x5C 0x75 0x32 0x30 0x32 0x38 _ 2 0 2 8 rfl rfl rfl rfl rfl rfl]
        cases unquoteLoop Z <;> rfl
      · have e3 : s2 = 0xA9 := Fin.ext (by
          show s2.val = 0xA9
          simp only at hsep
          have : ((0xE2 : Byte).val = 0xE2) := rfl
          have : ((0x80 : Byte).val = 0x80) := rfl
          omega)
        subst e3
        refine ⟨[0x5C, 0x75, 0x32, 0x30, 0x32, 0x39], hstep, ?_⟩
        intro Z
        show unquoteLoop (0x5C :: 0x75 :: 0x32 :: 0x30 :: 0x32 :: 0x39 :: Z) = _
        rw [unquote_u 0x5C 0x75 0x32 0x30 0x32 0x39 _ 2 0 2 9 rfl rfl rfl rfl rfl rfl]
        cases unquoteLoop Z <;> rfl
    · refine ⟨[b, s1, s2], ?_, ?_⟩
      · rw [stringLoop_copy f b _ hb herr hsep, hd]; rfl
      · intro Z
        rw [hd]
        show unquoteLoop (b :: s1 :: s2 :: Z) = _
        rw [unquote_plain b _ (by omega) (by omega) (by omega),
          unquote_plain s1 _ (by omega) (by omega) (by omega),
          unquote_plain s2 _ (by omega) (by omega) (by omega)]
        cases unquoteLoop Z <;> rfl
  · have hne : ¬((DecodeRuneInString (b :: s1 :: s2 :: s3 :: t3)).1 = 0x2028
        ∨ (DecodeRuneInString (b :: s1 :: s2 :: s3 :: t3)).1 = 0x2029) := by omega
    refine ⟨[b, s1, s2, s3], ?_, ?_⟩
    · rw [stringLoop_copy f b _ hb herr hne, hw]; rfl
    · intro Z
      rw [hw]
      show unquoteLoop (b :: s1 :: s2 :: s3 :: Z) = _
      rw [unquote_plain b _ (by omega) (by omega) (by omega),
        unquote_plain s1 _ (by omega) (by omega) (by omega),
        unquote_plain s2 _ (by omega) (by omega) (by omega),
        unquote_plain s3 _ (by omega) (by omega) (by omega)]
      cases unquoteLoop Z <;> rfl

/-- Decoding what the string encoder writes gives the string coerced to valid
UTF-8, for every string. -/
theorem unquote_stringLoop_coerce : ∀ (n : Nat) (s : GoString), s.length ≤ n →
    ∀ X : GoString,
      unquoteLoop (stringLoop n s ++ 0x22 :: X) = some (coerceLoop n s, X) := by
  intro n
  induction n with
  | zero =>
    intro s hs X
    have : s = [] := List.eq_nil_of_length_eq_zero (by omega)
    subst this
    exact unquote_close _ X rfl
  | succ f ih =>
    intro s hs X
    cases s with
    | nil => rw [stringLoop_nil, coerceLoop_nil]; exact unquote_close _ X rfl
    | cons b t =>
      simp only [List.length_cons] at hs
      have IHt := ih t (by omega) X
      by_cases hb : b.val < 0x80
      · rw [coerceLoop, if_pos hb]
        by_cases hsafe : htmlSafeSet b.val = true
        · obtain ⟨a1, a2, a3⟩ := htmlSafeSet_bounds _ hsafe
          rw [stringLoop_safe f b t hb hsafe, List.cons_append, unquote_plain b _ a1 a2 a3, IHt]
          rfl
        · have hs2 : htmlSafeSet b.val = false := by simpa using hsafe
          rw [stringLoop_escaped f b t hb hs2, List.append_assoc, unquote_escape b _ hb, IHt]
          rfl
      · have hb2 : 0x80 ≤ b.val := by omega
        rw [coerceLoop, if_neg hb]
        simp only
        by_cases herr : (DecodeRuneInString (b :: t)).1 = RuneError
            ∧ (DecodeRuneInString (b :: t)).2 = 1
        · rw [if_pos herr, stringLoop, if_neg hb]
          simp only
          rw [if_pos herr]
          show unquoteLoop (0x5C :: 0x75 :: 0x66 :: 0x66 :: 0x66 :: 0x64 ::
            (stringLoop f t ++ 0x22 :: X)) = _
          rw [unquote_u 0x5C 0x75 0x66 0x66 0x66 0x64 _ 15 15 15 13 rfl rfl rfl rfl rfl rfl, IHt]
          rfl
        · rw [if_neg herr]
          obtain ⟨E, hE, hdec⟩ := stringLoop_rune f b t hb2 herr
          have hw := decode_width b t hb2
          have IHd := ih ((b :: t).drop (DecodeRuneInString (b :: t)).2)
            (by simp only [List.length_drop, List.length_cons]; omega) X
          rw [hE, List.append_assoc, hdec, IHd]
          rfl

/-- A valid UTF-8 string is left as it is by the coercion. -/
theorem coerceUTF8_valid (s : GoString) (h : ValidString s = true) : coerceUTF8 s = s := by
  have h1 := unquote_stringLoop s.length s h s.length (le_refl _) []
  have h2 := unquote_stringLoop_coerce s.length s (le_refl _) []
  rw [h1] at h2
  simp only [Option.some.injEq, Prod.mk.injEq, and_true] at h2
  exact h2.symm

/-- Decoding the JSON string literal `json.Marshal` writes for `s`. -/
theorem unquote_jsonString (s : GoString) (X : GoString) :
    unquoteLoop (stringLoop s.length s ++ 0x22 :: X) = some (coerceUTF8 s, X) :=
  unquote_stringLoop_coerce s.length s (le_refl _) X

/-! ## Decoding what the report encoder writes -/

theorem readDigits_append (ds : GoString) : ∀ (n v : Nat), digitsValue ds n = some v →
    ∀ X : GoString, (∀ c rest, X = c :: rest → ¬(0x30 ≤ c.val ∧ c.val ≤ 0x39)) →
      readDigits (ds ++ X) n = (v, X) := by
  induction ds with
  | nil =>
    intro n v h X hX
    simp only [digitsValue, Option.some.injEq] at h
    subst h
    cases X with
    | nil => rfl
    | cons c rest =>
      rw [List.nil_append, readDigits, if_neg (hX c rest rfl)]
  | cons d more ih =>
    intro n v h X hX
    rw [digitsValue] at h
    by_cases hd : 0x30 ≤ d.val ∧ d.val ≤ 0x39
    · rw [if_pos hd] at h
      rw [List.cons_append, readDigits, if_pos hd]
      exact ih _ _ h X hX
    · rw [if_neg hd] at h
      exact absurd h (by simp)

/-- Reading back the text `strconv` writes for an integer. -/
theorem readInt_formatInt (v : Int) (X : GoString)
    (hX : ∀ c rest, X = c :: rest → ¬(0x30 ≤ c.val ∧ c.val ≤ 0x39)) :
    readInt (formatInt v ++ X) = some (v, X) := by
  unfold formatInt
  by_cases h0 : v = 0
  · rw [if_pos h0, h0]
    show readInt (0x30 :: X) = _
    rw [readInt.eq_def]
    simp only
    rw [if_neg (by decide), if_pos (by decide)]
    have := readDigits_append [0x30] 0 0 rfl X hX
    rw [show ((0x30 : Byte) :: X) = [0x30] ++ X from rfl, this]
    rfl
  rw [if_neg h0]
  have habs : v.natAbs ≠ 0 := by omega
  have hval := digitsValue_digitsLoop v.natAbs v.natAbs (le_refl _)
  have hne := digitsLoop_ne_nil v.natAbs habs
  have hrd := readDigits_append _ 0 _ hval X hX
  cases hl : digitsLoop v.natAbs v.natAbs with
  | nil => exact absurd hl hne
  | cons c rest =>
    have hc := digitsLoop_digits v.natAbs v.natAbs c (by rw [hl]; simp)
    rw [hl] at hrd
    by_cases hneg : v < 0
    · rw [if_pos hneg]
      show readInt (0x2D :: (c :: rest ++ X)) = _
      rw [readInt.eq_def]
      simp only [List.cons_append]
      rw [if_pos (show ((0x2D : Byte).val = 0x2D) from rfl), if_pos hc]
      rw [List.cons_append] at hrd
      rw [hrd]
      simp only [Int.ofNat_eq_coe, Option.some.injEq, Prod.mk.injEq, and_true]
      omega
    · rw [if_neg hneg]
      show readInt (c :: (rest ++ X)) = _
      rw [readInt.eq_def]
      simp only
      rw [if_neg (by omega), if_pos hc]
      rw [List.cons_append] at hrd
      rw [hrd]
      simp only [Int.ofNat_eq_coe, Option.some.injEq, Prod.mk.injEq, and_true]
      omega

theorem readBool_text (d : Bool) (X : GoString) :
    readBool ((if d then lit "true" else lit "false") ++ X) = some (d, X) := by
  cases d
  · show readBool (lit "false" ++ X) = _
    rw [readBool]
    rw [show expect (lit "true") (lit "false" ++ X) = none from rfl]
    simp only
    rw [expect_append]
  · show readBool (lit "true" ++ X) = _
    rw [readBool, expect_append]

theorem marshalHistory_shape (h : getHistoryOfState.history) (X : GoString) :
    getHistoryOfState.marshalHistory h ++ X
      = lit "\x7b\"txID\":\"" ++ (stringLoop h.TxID.length h.TxID ++ 0x22 ::
          (lit ",\"value\":" ++ (formatInt h.Value ++ (lit ",\"isDelete\":"
            ++ ((if h.IsDelete then lit "true" else lit "false") ++ (lit "\x7d" ++ X)))))) := by
  simp only [getHistoryOfState.marshalHistory, jsonString, List.append_assoc, List.cons_append,
    List.nil_append]
  rfl

/-- Reading back one history object. -/
theorem readEntry_marshal (h : getHistoryOfState.history) (X : GoString) :
    readEntry (getHistoryOfState.marshalHistory h ++ X) = some (coerceEntry h, X) := by
  rw [marshalHistory_shape, readEntry, expect_append]
  simp only [Option.bind]
  rw [unquote_jsonString]
  simp only
  rw [expect_append]
  simp only
  rw [readInt_formatInt _ _ (by
    intro c rest hc
    rw [show lit ",\"isDelete\":" ++ ((if h.IsDelete then lit "true" else lit "false")
        ++ (lit "\x7d" ++ X))
      = 0x2C :: (lit "\"isDelete\":" ++ ((if h.IsDelete then lit "true" else lit "false")
        ++ (lit "\x7d" ++ X))) from rfl] at hc
    injection hc with h1 _
    subst h1
    decide)]
  simp only
  rw [expect_append]
  simp only
  rw [readBool_text]
  simp only
  rw [expect_append]
  rfl

theorem marshalHistory_head (h : getHistoryOfState.history) (X : GoString) :
    getHistoryOfState.marshalHistory h ++ X
      = 0x7B :: (lit "\"txID\":" ++ jsonString h.TxID ++ lit ",\"value\":" ++ formatInt h.Value
          ++ lit ",\"isDelete\":" ++ (if h.IsDelete then lit "true" else lit "false")
          ++ lit "\x7d" ++ X) := by
  simp only [getHistoryOfState.marshalHistory, List.append_assoc]
  rfl

theorem joinComma_cons (x : GoString) (y : GoString) (rest : List GoString) :
    joinComma (x :: y :: rest) = x ++ 0x2C :: joinComma (y :: rest) := rfl

/-- Reading back the objects of a non-empty array. -/
theorem readEntries_marshal (l : List getHistoryOfState.history) :
    ∀ (fuel : Nat) (X : GoString), l ≠ [] → l.length ≤ fuel →
      readEntries fuel (joinComma (l.map getHistoryOfState.marshalHistory) ++ 0x5D :: X)
        = some (l.map coerceEntry, X) := by
  induction l with
  | nil => intro fuel X h; exact absurd rfl h
  | cons h rest ih =>
    intro fuel X _ hf
    obtain ⟨f, rfl⟩ : ∃ f, fuel = f + 1 := ⟨fuel - 1, by simp at hf; omega⟩
    cases rest with
    | nil =>
      show readEntries (f + 1) (getHistoryOfState.marshalHistory h ++ 0x5D :: X) = _
      rw [readEntries, readEntry_marshal]
      simp only
      rw [if_neg (by decide), if_pos (by decide)]
      rfl
    | cons h2 more =>
      have IH := ih f X (by simp) (by simp at hf ⊢; omega)
      rw [List.map_cons, List.map_cons, joinComma_cons, List.append_assoc, List.cons_append,
        readEntries, readEntry_marshal]
      simp only
      rw [if_pos (by decide), ← List.map_cons, IH]
      rfl

theorem marshalHistory_length (h : getHistoryOfState.history) :
    1 ≤ (getHistoryOfState.marshalHistory h).length := by
  have := congrArg List.length (marshalHistory_head h [])
  simp only [List.append_nil, List.length_cons] at this
  omega

theorem joinComma_length (l : List getHistoryOfState.history) :
    l.length ≤ (joinComma (l.map getHistoryOfState.marshalHistory)).length := by
  induction l with
  | nil => simp
  | cons h rest ih =>
    cases rest with
    | nil =>
      show 1 ≤ (getHistoryOfState.marshalHistory h).length
      exact marshalHistory_length h
    | cons h2 more =>
      rw [List.map_cons, List.map_cons, joinComma_cons, List.length_append, List.length_cons]
      rw [List.map_cons] at ih
      have := marshalHistory_length h
      simp only [List.length_cons] at ih ⊢
      omega

/-- Reading back the member `history`. -/
theorem readHistory_marshal (hist : Option (List getHistoryOfState.history)) (X : GoString) :
    readHistory ((match hist with
        | none => lit "null"
        | some l => 0x5B :: joinComma (l.map getHistoryOfState.marshalHistory) ++ [0x5D]) ++ X)
      = some (hist.map (List.map coerceEntry), X) := by
  cases hist with
  | none =>
    show readHistory (lit "null" ++ X) = _
    rw [readHistory.eq_def, expect_append]
    rfl
  | some l =>
    cases l with
    | nil =>
      show readHistory (0x5B :: 0x5D :: X) = _
      rfl
    | cons h rest =>
      have hlen := joinComma_length (h :: rest)
      have hshape : (0x5B :: joinComma ((h :: rest).map getHistoryOfState.marshalHistory)
            ++ [0x5D]) ++ X
          = 0x5B :: (joinComma ((h :: rest).map getHistoryOfState.marshalHistory)
              ++ 0x5D :: X) := by simp
      have hhead : ∃ tail, joinComma ((h :: rest).map getHistoryOfState.marshalHistory)
            ++ 0x5D :: X = 0x7B :: tail := by
        cases rest with
        | nil => exact ⟨_, marshalHistory_head h (0x5D :: X)⟩
        | cons h2 more =>
          rw [List.map_cons, List.map_cons, joinComma_cons, List.append_assoc]
          exact ⟨_, marshalHistory_head h _⟩
      obtain ⟨tail, htail⟩ := hhead
      have hdec := readEntries_marshal (h :: rest)
        (joinComma ((h :: rest).map getHistoryOfState.marshalHistory) ++ 0x5D :: X).length X
        (by simp) (by rw [List.length_append]; omega)
      simp only
      rw [hshape]
      rw [htail] at hdec ⊢
      rw [readHistory.eq_def]
      simp only
      rw [show expect (lit "null") (0x5B :: 0x7B :: tail) = none from rfl]
      simp only
      rw [if_pos (show ((0x5B : Byte).val = 0x5B) from rfl),
        if_neg (show ¬((0x7B : Byte).val = 0x5D) by decide), hdec]
      rfl

theorem Marshal_shape (r : getHistoryOfState.returnValues) :
    getHistoryOfState.Marshal r
      = lit "\x7b\"numberOfTransactions\":" ++ (formatInt r.NumberOfTransactions
          ++ (lit ",\"assetName\":\"" ++ (stringLoop r.AssetName.length r.AssetName ++ 0x22 ::
            (lit ",\"history\":" ++ ((match r.History with
              | none => lit "null"
              | some l => 0x5B :: joinComma (l.map getHistoryOfState.marshalHistory) ++ [0x5D])
              ++ lit "\x7d"))))) := by
  simp only [getHistoryOfState.Marshal, jsonString, List.append_assoc, List.cons_append,
    List.nil_append]
  rfl

/-- Decoding undoes the report encoder, up to the coercion of the strings to
valid UTF-8. -/
theorem decodeReport_Marshal (r : getHistoryOfState.returnValues) :
    decodeReport (getHistoryOfState.Marshal r)
      = some { NumberOfTransactions := r.NumberOfTransactions
               AssetName := coerceUTF8 r.AssetName
               History := r.History.map (List.map coerceEntry) } := by
  rw [Marshal_shape, decodeReport, expect_append]
  simp only [Option.bind]
  rw [readInt_formatInt _ _ (by
    intro c rest hc
    rw [show lit ",\"assetName\":\"" ++ (stringLoop r.AssetName.length r.AssetName ++ 0x22 ::
            (lit ",\"history\":" ++ ((match r.History with
              | none => lit "null"
              | some l => 0x5B :: joinComma (l.map getHistoryOfState.marshalHistory) ++ [0x5D])
              ++ lit "\x7d")))
      = 0x2C :: (lit "\"assetName\":\"" ++ (stringLoop r.AssetName.length r.AssetName ++ 0x22 ::
            (lit ",\"history\":" ++ ((match r.History with
              | none => lit "null"
              | some l => 0x5B :: joinComma (l.map getHistoryOfState.marshalHistory) ++ [0x5D])
              ++ lit "\x7d")))) from rfl] at hc
    injection hc with h1 _
    subst h1
    decide)]
  simp only
  rw [expect_append]
  simp only
  rw [unquote_jsonString]
  simp only
  rw [expect_append]
  simp only
  rw [readHistory_marshal]
  simp

/-! ## `strconv.Atoi` on text that does not parse, told from the text -/

theorem readDigits_ge (s : GoString) : ∀ n, n ≤ (readDigits s n).1 := by
  induction s with
  | nil => intro n; exact le_refl _
  | cons c rest ih =>
    intro n
    rw [readDigits]
    by_cases hd : 0x30 ≤ c.val ∧ c.val ≤ 0x39
    · rw [if_pos hd]
      have := ih (n * 10 + (c.val - 0x30))
      omega
    · rw [if_neg hd]

theorem readDigits_lt_pow (s : GoString) :
    ∀ n, (readDigits s n).1 + 1 ≤ (n + 1) * 10 ^ s.length := by
  induction s with
  | nil => intro n; simp [readDigits]
  | cons c rest ih =>
    intro n
    rw [readDigits]
    by_cases hd : 0x30 ≤ c.val ∧ c.val ≤ 0x39
    · rw [if_pos hd]
      have h1 := ih (n * 10 + (c.val - 0x30))
      have h2 : (n * 10 + (c.val - 0x30) + 1) * 10 ^ rest.length
          ≤ ((n + 1) * 10) * 10 ^ rest.length :=
        Nat.mul_le_mul_right _ (by omega)
      rw [List.length_cons, pow_succ]
      calc (readDigits rest (n * 10 + (c.val - 0x30))).1 + 1
          ≤ (n * 10 + (c.val - 0x30) + 1) * 10 ^ rest.length := h1
        _ ≤ ((n + 1) * 10) * 10 ^ rest.length := h2
        _ = (n + 1) * (10 ^ rest.length * 10) := by ring
    · rw [if_neg hd]
      have : 1 ≤ 10 ^ (c :: rest).length := Nat.one_le_pow _ _ (by omega)
      calc n + 1 = (n + 1) * 1 := by ring
        _ ≤ (n + 1) * 10 ^ (c :: rest).length := Nat.mul_le_mul_left _ this

theorem digitsValue_readDigits (s : GoString) (n v : Nat) (h : digitsValue s n = some v) :
    readDigits s n = (v, []) := by
  have := readDigits_append s n v h [] (by intro c rest hc; exact absurd hc (by simp))
  rwa [List.append_nil] at this

theorem readDigits_whole (s : GoString) : ∀ n, (readDigits s n).2 = [] →
    digitsValue s n = some (readDigits s n).1 := by
  induction s with
  | nil => intro n _; rfl
  | cons c rest ih =>
    intro n h
    rw [readDigits] at h ⊢
    rw [digitsValue]
    by_cases hd : 0x30 ≤ c.val ∧ c.val ≤ 0x39
    · rw [if_pos hd] at h ⊢
      rw [if_pos hd]
      exact ih _ h
    · rw [if_neg hd] at h
      exact absurd h (by simp)

/-- The digit loop of `ParseUint`, told from the leading run of digits: a range
error as soon as the run reaches 2^64, else the value of the run when nothing
follows it, else a syntax error. -/
theorem parseUintLoop_spec (s : GoString) : ∀ n, n < 2 ^ 64 →
    parseUintLoop s n
      = if 2 ^ 64 ≤ (readDigits s n).1 then (2 ^ 64 - 1, some .ErrRange)
        else if (readDigits s n).2 = [] then ((readDigits s n).1, none)
        else (0, some .ErrSyntax) := by
  have e64 : (2 : Nat) ^ 64 = 18446744073709551616 := by norm_num
  rw [e64]
  induction s with
  | nil =>
    intro n hn
    rw [parseUintLoop, readDigits, if_neg (by simp only; omega), if_pos rfl]
  | cons c rest ih =>
    intro n hn
    have hc := c.isLt
    rw [parseUintLoop, readDigits]
    by_cases hd : 0x30 ≤ c.val ∧ c.val ≤ 0x39
    · rw [if_pos hd, if_pos hd]
      have hge := readDigits_ge rest (n * 10 + (c.val - 0x30))
      simp only [intSize]
      rw [e64]
      have e2 : (18446744073709551616 - 1) / 10 + 1 = 1844674407370955162 := by norm_num
      rw [e2]
      by_cases hcut : n ≥ 1844674407370955162
      · rw [if_pos hcut, if_pos (by omega)]
      rw [if_neg hcut]
      by_cases hover : 18446744073709551616 ≤ n * 10 + (c.val - 0x30)
      · have e3 : (n * 10 + (c.val - 0x30)) % 18446744073709551616
            = n * 10 + (c.val - 0x30) - 18446744073709551616 := by omega
        rw [e3, if_pos (by omega), if_pos (by omega)]
      · have e3 : (n * 10 + (c.val - 0x30)) % 18446744073709551616
            = n * 10 + (c.val - 0x30) := Nat.mod_eq_of_lt (by omega)
        rw [e3, if_neg (by omega)]
        exact ih _ (by omega)
    · rw [if_neg hd, if_neg hd, if_neg (by simp only; omega), if_neg (by simp)]

/-- What `strconv.Atoi` returns as its `int` for a text that does not parse,
told from the text. -/
theorem Atoi_unparsed (s : GoString) (h : parsesAsInt s = false) :
    (Atoi s).1 = unparsedValue s := by
  have e64 : (2 : Nat) ^ 64 = 18446744073709551616 := by norm_num
  have i63 : (2 : Int) ^ 63 = 9223372036854775808 := by norm_num
  cases s with
  | nil => rfl
  | cons c rest =>
    -- the digits after the optional sign
    generalize hbody : (if c.val = 0x2D ∨ c.val = 0x2B then rest else c :: rest) = body
    have hbody2 : (if c.val = 0x2B ∨ c.val = 0x2D then rest else c :: rest) = body := by
      rw [← hbody]
      by_cases h1 : c.val = 0x2D ∨ c.val = 0x2B
      · rw [if_pos h1, if_pos (Or.symm h1)]
      · rw [if_neg h1, if_neg (fun h2 => h1 (Or.symm h2))]
    -- the decimal value of the text, in terms of those digits
    have hdec : decimalValue (c :: rest)
        = if body = [] then none
          else (digitsValue body 0).map
            (fun v => if c.val = 0x2D then -Int.ofNat v else Int.ofNat v) := by
      rw [decimalValue, ← hbody]
      by_cases hm : c.val = 0x2D
      · rw [if_pos hm, if_pos (Or.inl hm)]
        by_cases hr : rest = []
        · rw [if_pos hr, if_pos hr]
        · rw [if_neg hr, if_neg hr]
          cases digitsValue rest 0 <;> simp [hm]
      · rw [if_neg hm]
        by_cases hp : c.val = 0x2B
        · rw [if_pos hp, if_pos (Or.inr hp)]
          by_cases hr : rest = []
          · rw [if_pos hr, if_pos hr]
          · rw [if_neg hr, if_neg hr]
            cases digitsValue rest 0 <;> simp [hm]
        · rw [if_neg hp, if_neg (not_or.mpr ⟨hm, hp⟩), if_neg (by simp)]
          cases digitsValue (c :: rest) 0 <;> simp [hm]
    have hlenb : body.length ≤ (c :: rest).length := by
      rw [← hbody]
      by_cases h1 : c.val = 0x2D ∨ c.val = 0x2B
      · rw [if_pos h1]; simp
      · rw [if_neg h1]
    rw [unparsedValue, hbody, hdec]
    rw [parsesAsInt, hdec] at h
    unfold Atoi
    by_cases hfast : 0 < (c :: rest).length ∧ (c :: rest).length < 19
    · -- fast path
      rw [if_pos hfast]
      simp only
      rw [hbody, atoiFastLoop_eq]
      have hpow := readDigits_lt_pow body 0
      have hpow2 : 10 ^ body.length ≤ 10 ^ 18 :=
        Nat.pow_le_pow_right (by omega) (by omega)
      have e18 : (10 : Nat) ^ 18 = 1000000000000000000 := by norm_num
      rw [e18] at hpow2
      have hrun : (readDigits body 0).1 < 1000000000000000000 := by
        simp only [zero_add, one_mul] at hpow
        omega
      by_cases hb : body = []
      · rw [if_pos hb, hb]
        simp [readDigits]
      rw [if_neg hb] at h ⊢
      rw [if_neg (by
        cases body with
        | nil => exact absurd rfl hb
        | cons _ _ => simp)]
      cases hv : digitsValue body 0 with
      | none =>
        simp only [Option.map_none', Option.isSome_none, Bool.false_eq_true, false_or]
        rw [e64, if_neg (by omega)]
      | some v =>
        exfalso
        rw [hv] at h
        have hrd := digitsValue_readDigits body 0 v hv
        rw [hrd] at hrun
        simp only [Option.map_some', decide_eq_false_iff_not, i63] at h
        apply h
        by_cases hm : c.val = 0x2D
        · simp only [hm, if_true, Int.ofNat_eq_coe]; omega
        · simp only [hm, if_false, Int.ofNat_eq_coe]; omega
    · -- the path through `ParseInt`
      rw [if_neg hfast]
      unfold ParseInt
      simp only [intSize]
      rw [hbody2]
      have e63 : (2 : Nat) ^ (64 - 1) = 9223372036854775808 := by norm_num
      rw [e63, i63, e64]
      by_cases hb : body = []
      · rw [if_pos hb, hb]
        simp [ParseUint, readDigits]
      rw [if_neg hb] at h ⊢
      have hpu : ParseUint body = parseUintLoop body 0 := by
        rw [ParseUint, if_neg hb]
      rw [hpu, parseUintLoop_spec body 0 (by norm_num), e64]
      by_cases hbig : 18446744073709551616 ≤ (readDigits body 0).1
      · rw [if_pos hbig, if_pos (Or.inr hbig)]
        by_cases hm : c.val = 0x2D
        · simp [hm]
        · simp [hm]
      rw [if_neg hbig]
      by_cases htail : (readDigits body 0).2 = []
      · rw [if_pos htail]
        have hv := readDigits_whole body 0 htail
        rw [hv] at h ⊢
        simp only [Option.map_some', decide_eq_false_iff_not, i63, Int.ofNat_eq_coe] at h
        simp only [Option.map_some', Option.isSome_some, true_or, if_true]
        by_cases hm : c.val = 0x2D
        · simp only [hm, if_true] at h
          simp only [hm, decide_True, Bool.not_true, Bool.false_eq_true, false_and, if_false,
            true_and, if_true]
          rw [if_neg (by simp), if_pos (by omega)]
          norm_num
        · simp only [hm, if_false] at h
          simp only [hm, decide_False, Bool.not_false, true_and, if_false]
          rw [if_neg (by simp), if_pos (by omega)]
          norm_num
      · rw [if_neg htail]
        have hnone : digitsValue body 0 = none := by
          cases hv : digitsValue body 0 with
          | none => rfl
          | some v =>
            have := digitsValue_readDigits body 0 v hv
            rw [this] at htail
            exact absurd rfl htail
        rw [hnone]
        simp only [Option.map_none', Option.isSome_none, Bool.false_eq_true, false_or]
        rw [if_pos trivial, if_neg hbig]

/-! ## The payload of `getHistoryOfState` read back -/

/-- The entry decoded for one record: the transaction id coerced to valid
UTF-8, the `int` that `strconv.Atoi` returns, the delete flag. -/
theorem coerceEntry_historyOf (km : KeyModification) :
    coerceEntry (historyOf km)
      = { TxID := coerceUTF8 km.TxId, Value := (Atoi km.Value).1, IsDelete := km.IsDelete } :=
  rfl

/-- Decoding the text of a report: the text `json.Marshal` writes for the
report with the count `n`, the name `name` and the entries `hist` decodes to
that report, with the strings coerced to valid UTF-8. -/
theorem decodeReport_text (n : Int) (name : GoString)
    (hist : Option (List getHistoryOfState.history)) :
    decodeReport (lit "\x7b\"numberOfTransactions\":" ++ formatInt n
        ++ lit ",\"assetName\":" ++ jsonString name ++ lit ",\"history\":"
        ++ (match hist with
            | none => lit "null"
            | some l => 0x5B :: joinComma (l.map (fun h =>
                lit "\x7b\"txID\":" ++ jsonString h.TxID ++ lit ",\"value\":" ++ formatInt h.Value
                  ++ lit ",\"isDelete\":" ++ (if h.IsDelete then lit "true" else lit "false")
                  ++ lit "\x7d")) ++ [0x5D])
        ++ lit "\x7d")
      = some { NumberOfTransactions := n, AssetName := coerceUTF8 name,
               History := hist.map (List.map coerceEntry) } :=
  decodeReport_Marshal { NumberOfTransactions := n, AssetName := name, History := hist }

theorem decoded_entry (recs : List KeyModification) (i : Nat) (km : KeyModification)
    (hi : recs[i]? = some km) :
    (((if recs = [] then none else some (recs.map historyOf)).map
        (List.map coerceEntry)).getD [])[i]?
      = some (coerceEntry (historyOf km)) := by
  by_cases h : recs = []
  · subst h; simp at hi
  · rw [if_neg h]
    simp [hi]

theorem decoded_length (recs : List KeyModification) :
    (((if recs = [] then none else some (recs.map historyOf)).map
        (List.map coerceEntry)).getD []).length
      = recs.length := by
  by_cases h : recs = []
  · subst h; rfl
  · rw [if_neg h]; simp

/-! ## The claims -/

/-- C1, as amended to valid UTF-8.  Over an accessor whose `PutState` of the pair
succeeds and whose `GetState` then returns the bytes just put: for every key
and value that are valid UTF-8, `set [key, value]` followed by `get [key]`
succeeds, and decoding the payload gives back that key and that value. -/
theorem set_get_roundtrip {σ : Type} (stub : ChaincodeStub σ) (key value : GoString)
    (w : World σ) (hkey : ValidString key = true) (hvalue : ValidString value = true)
    (hput : (stub.PutState key value w.ledger).1 = none)
    (hget : stub.GetState key (stub.PutState key value w.ledger).2 = .ok (some value)) :
    (set stub [key, value] w).1.2 = none
    ∧ (get stub [key] (set stub [key, value] w).2).1.2 = none
    ∧ decodeGetPayload (get stub [key] (set stub [key, value] w).2).1.1 = some (key, value) := by
  have hs : (set stub [key, value] w)
      = ((lit "The state of the asset " ++ key
            ++ lit " has been setup successfully with the value " ++ value, none),
          ⟨(stub.PutState key value w.ledger).2, w.calls ++ [Call.PutState key value]⟩) := by
    simp [set, callPutState, hput]
  have hg : (get stub [key] (set stub [key, value] w).2).1
      = (get.Marshal { Key := key, Value := value }, none) := by
    rw [hs]
    simp [get, callGetState, hget]
  rw [hg, hs]
  exact ⟨rfl, rfl, decode_get_Marshal key value hkey hvalue⟩

/-- C1, witness: key `k1` and value `200` over the in-memory accessor. -/
theorem set_get_roundtrip_witness :
    ValidString (lit "k1") = true ∧ ValidString (lit "200") = true
    ∧ decodeGetPayload
        (get (memStub none (fun _ => .ok [])) [lit "k1"]
          (set (memStub none (fun _ => .ok [])) [lit "k1", lit "200"] emptyWorld).2).1.1
      = some (lit "k1", lit "200") :=
  ⟨by decide, by decide,
    (set_get_roundtrip (memStub none (fun _ => .ok [])) (lit "k1") (lit "200") emptyWorld
      (by decide) (by decide) rfl rfl).2.2⟩

/-- C1, as stated, fails for a key that is not valid UTF-8: over the in-memory
accessor `set [key, v]` and `get [key]` succeed for the one-byte key 0xFF, but
the payload carries the replacement character U+FFFD in place of the byte, and
decoding it gives the three bytes of U+FFFD, not the key. -/
theorem set_get_invalid_utf8 :
    (set (memStub none (fun _ => .ok [])) [[0xFF], lit "v"] emptyWorld).1.2 = none
    ∧ (get (memStub none (fun _ => .ok [])) [[0xFF]]
        (set (memStub none (fun _ => .ok [])) [[0xFF], lit "v"] emptyWorld).2).1
      = (lit "\x7b\"key\":\"\\ufffd\",\"value\":\"v\"\x7d", none)
    ∧ decodeGetPayload (lit "\x7b\"key\":\"\\ufffd\",\"value\":\"v\"\x7d")
      = some ([0xEF, 0xBF, 0xBD], lit "v")
    ∧ decodeGetPayload
        (get (memStub none (fun _ => .ok [])) [[0xFF]]
          (set (memStub none (fun _ => .ok [])) [[0xFF], lit "v"] emptyWorld).2).1.1
      ≠ some ([0xFF], lit "v") := by
  decide

/-- C2, as amended.  For every key and every sequence `recs` of history
records the iterator yields without error, `getHistoryOfState [key]` returns
no error and a payload that decodes to a report whose `numberOfTransactions`
is the number of records, whose `assetName` is the key coerced to valid UTF-8
(the key itself when it is valid UTF-8), whose `history` has one entry per
record, and whose `i`-th entry carries the delete flag of the `i`-th record
and its transaction id, coerced likewise. -/
theorem getHistoryOfState_report {σ : Type} (verbs : GoString → GoString)
    (stub : ChaincodeStub σ) (key : GoString) (recs : List KeyModification) (w : World σ)
    (hopen : stub.GetHistoryForKey key w.ledger = .ok (recs.map .ok)) :
    (getHistoryOfState verbs stub [key] w).1.2 = none
    ∧ ∃ report : getHistoryOfState.returnValues,
      decodeReport (getHistoryOfState verbs stub [key] w).1.1 = some report
      ∧ report.NumberOfTransactions = recs.length
      ∧ report.AssetName = coerceUTF8 key
      ∧ (ValidString key = true → report.AssetName = key)
      ∧ (report.History.getD []).length = recs.length
      ∧ ∀ (i : Nat) (km : KeyModification), recs[i]? = some km →
          ∃ entry, (report.History.getD [])[i]? = some entry
            ∧ entry.TxID = coerceUTF8 km.TxId
            ∧ (ValidString km.TxId = true → entry.TxID = km.TxId)
            ∧ entry.IsDelete = km.IsDelete := by
  rw [getHistoryOfState_ok verbs stub key [] recs w hopen, foldl_history_none]
  refine ⟨rfl, _,
    decodeReport_text recs.length key (if recs = [] then none else some (recs.map historyOf)),
    rfl, rfl, coerceUTF8_valid key, decoded_length recs, ?_⟩
  intro i km hi
  exact ⟨_, decoded_entry recs i km hi, rfl, coerceUTF8_valid km.TxId, rfl⟩

/-- C2, witness: two records over the in-memory accessor, the second a delete
with no value; the payload and the report it decodes to. -/
theorem getHistoryOfState_report_witness :
    (getHistoryOfState id
        (memStub none (fun _ => .ok [.ok ⟨lit "tx1", lit "100", false⟩,
          .ok ⟨lit "tx2", [], true⟩])) [lit "k1"] emptyWorld).1.1
      = lit ("\x7b\"numberOfTransactions\":2,\"assetName\":\"k1\",\"history\":"
          ++ "[\x7b\"txID\":\"tx1\",\"value\":100,\"isDelete\":false\x7d,"
          ++ "\x7b\"txID\":\"tx2\",\"value\":0,\"isDelete\":true\x7d]\x7d")
    ∧ decodeReport (getHistoryOfState id
        (memStub none (fun _ => .ok [.ok ⟨lit "tx1", lit "100", false⟩,
          .ok ⟨lit "tx2", [], true⟩])) [lit "k1"] emptyWorld).1.1
      = some { NumberOfTransactions := 2, AssetName := lit "k1",
               History := some [{ TxID := lit "tx1", Value := 100, IsDelete := false },
                                { TxID := lit "tx2", Value := 0, IsDelete := true }] }
    ∧ (getHistoryOfState id
        (memStub none (fun _ => .ok [.ok ⟨lit "tx1", lit "100", false⟩,
          .ok ⟨lit "tx2", [], true⟩])) [lit "k1"] emptyWorld).1.2 = none :=
  ⟨by decide, by decide,
    (getHistoryOfState_report id
      (memStub none (fun _ => .ok [.ok ⟨lit "tx1", lit "100", false⟩,
        .ok ⟨lit "tx2", [], true⟩]))
      (lit "k1") [⟨lit "tx1", lit "100", false⟩, ⟨lit "tx2", [], true⟩] emptyWorld rfl).1⟩

/-- C2, as stated, fails for a key that is not valid UTF-8: for the one-byte
key 0xFF over an iterator that yields one record, the query succeeds and the
`assetName` of the payload is the replacement character U+FFFD, not the key. -/
theorem getHistoryOfState_asset_name_coerced :
    (getHistoryOfState id (memStub none (fun _ => .ok [.ok ⟨lit "tx1", lit "100", false⟩]))
        [[0xFF]] emptyWorld).1
      = (lit ("\x7b\"numberOfTransactions\":1,\"assetName\":\"\\ufffd\",\"history\":"
          ++ "[\x7b\"txID\":\"tx1\",\"value\":100,\"isDelete\":false\x7d]\x7d"), none)
    ∧ decodeReport (getHistoryOfState id
        (memStub none (fun _ => .ok [.ok ⟨lit "tx1", lit "100", false⟩]))
        [[0xFF]] emptyWorld).1.1
      = some { NumberOfTransactions := 1, AssetName := [0xEF, 0xBF, 0xBD],
               History := some [{ TxID := lit "tx1", Value := 100, IsDelete := false }] }
    ∧ ([0xEF, 0xBF, 0xBD] : GoString) ≠ [0xFF] := by
  decide

/-- C3, as amended.  A history record whose value does not parse as a base-10
integer of type `int` does not fail the query: over an iterator that yields
`recs` without error the query returns no error, and in the decoded payload
the entry at the position of the record carries its delete flag, its
transaction id (coerced to valid UTF-8) and the value `unparsedValue` tells
from the text: the largest `int`, or the smallest after a `-`, when the text
is a decimal integer out of range or its digits start with a run worth 2^64
or more, and zero for every other text. -/
theorem getHistoryOfState_unparsed {σ : Type} (verbs : GoString → GoString)
    (stub : ChaincodeStub σ) (key : GoString) (recs : List KeyModification) (w : World σ)
    (i : Nat) (km : KeyModification)
    (hopen : stub.GetHistoryForKey key w.ledger = .ok (recs.map .ok))
    (hi : recs[i]? = some km) (hparse : parsesAsInt km.Value = false) :
    (getHistoryOfState verbs stub [key] w).1.2 = none
    ∧ ∃ report : getHistoryOfState.returnValues,
      decodeReport (getHistoryOfState verbs stub [key] w).1.1 = some report
      ∧ ∃ entry, (report.History.getD [])[i]? = some entry
          ∧ entry.Value = unparsedValue km.Value
          ∧ entry.TxID = coerceUTF8 km.TxId
          ∧ (ValidString km.TxId = true → entry.TxID = km.TxId)
          ∧ entry.IsDelete = km.IsDelete := by
  rw [getHistoryOfState_ok verbs stub key [] recs w hopen, foldl_history_none]
  exact ⟨rfl, _,
    decodeReport_text recs.length key (if recs = [] then none else some (recs.map historyOf)),
    _, decoded_entry recs i km hi, Atoi_unparsed km.Value hparse, rfl,
    coerceUTF8_valid km.TxId, rfl⟩

set_option maxRecDepth 8192 in
/-- C3, witness: a record whose value is the text `abc`, reported as zero,
and a delete record whose value is the text `-99999999999999999999x`, reported
as the smallest `int`; the payload, and the second record in its decoding. -/
theorem getHistoryOfState_unparsed_witness :
    parsesAsInt (lit "abc") = false ∧ unparsedValue (lit "abc") = 0
    ∧ parsesAsInt (lit "-99999999999999999999x") = false
    ∧ unparsedValue (lit "-99999999999999999999x") = -9223372036854775808
    ∧ (getHistoryOfState id
          (memStub none (fun _ => .ok [.ok ⟨lit "tx1", lit "abc", false⟩,
            .ok ⟨lit "tx2", lit "-99999999999999999999x", true⟩]))
          [lit "k1"] emptyWorld).1.1
      = lit ("\x7b\"numberOfTransactions\":2,\"assetName\":\"k1\",\"history\":"
          ++ "[\x7b\"txID\":\"tx1\",\"value\":0,\"isDelete\":false\x7d,"
          ++ "\x7b\"txID\":\"tx2\",\"value\":-9223372036854775808,"
          ++ "\"isDelete\":true\x7d]\x7d")
    ∧ ∃ report : getHistoryOfState.returnValues,
      decodeReport (getHistoryOfState id
          (memStub none (fun _ => .ok [.ok ⟨lit "tx1", lit "abc", false⟩,
            .ok ⟨lit "tx2", lit "-99999999999999999999x", true⟩]))
          [lit "k1"] emptyWorld).1.1 = some report
      ∧ ∃ entry, (report.History.getD [])[1]? = some entry
          ∧ entry.Value = unparsedValue (lit "-99999999999999999999x")
          ∧ entry.TxID = coerceUTF8 (lit "tx2")
          ∧ (ValidString (lit "tx2") = true → entry.TxID = lit "tx2")
          ∧ entry.IsDelete = true :=
  ⟨by decide, by decide, by decide, by decide, by decide,
    (getHistoryOfState_unparsed id
      (memStub none (fun _ => .ok [.ok ⟨lit "tx1", lit "abc", false⟩,
        .ok ⟨lit "tx2", lit "-99999999999999999999x", true⟩]))
      (lit "k1") [⟨lit "tx1", lit "abc", false⟩, ⟨lit "tx2", lit "-99999999999999999999x", true⟩]
      emptyWorld 1 ⟨lit "tx2", lit "-99999999999999999999x", true⟩
      rfl rfl (by decide)).2⟩

/-- C3, as stated, fails for a digit string too large for `int`: the value
`9223372036854775808` does not parse (range error), the query succeeds, and
the value field of the record is 9223372036854775807, not zero. -/
theorem getHistoryOfState_overflow_value :
    (Atoi (lit "9223372036854775808")).2 = some .ErrRange
    ∧ (getHistoryOfState id
        (memStub none (fun _ => .ok [.ok ⟨lit "tx1", lit "9223372036854775808", false⟩]))
        [lit "k1"] emptyWorld).1
      = (getHistoryOfState.Marshal
          { NumberOfTransactions := 1, AssetName := lit "k1",
            History := some [{ TxID := lit "tx1", Value := 9223372036854775807,
                               IsDelete := false }] }, none)
    ∧ getHistoryOfState.Marshal
          { NumberOfTransactions := 1, AssetName := lit "k1",
            History := some [{ TxID := lit "tx1", Value := 9223372036854775807,
                               IsDelete := false }] }
      = lit ("\x7b\"numberOfTransactions\":1,\"assetName\":\"k1\",\"history\":"
          ++ "[\x7b\"txID\":\"tx1\",\"value\":9223372036854775807,\"isDelete\":false\x7d]\x7d")
    ∧ (9223372036854775807 : Int) ≠ 0 := by
  decide

/-- C4.  The iterator is closed when the iteration runs to exhaustion, but not
when a fetch fails inside the loop: over an iterator that yields one record
and then fails, the query fails and the calls made are `GetHistoryForKey`,
`HasNext`, `Next`, `HasNext`, `Next`, with no `Close`; over the same iterator
without the failing fetch the calls end in `Close`. -/
theorem getHistoryOfState_close_skipped :
    (getHistoryOfState id
        (memStub none (fun _ => .ok [.ok ⟨lit "tx1", lit "100", false⟩, .error (lit "boom")]))
        [lit "k1"] emptyWorld).1
      = ([], some (lit "Error in reading history recordboom"))
    ∧ (getHistoryOfState id
        (memStub none (fun _ => .ok [.ok ⟨lit "tx1", lit "100", false⟩, .error (lit "boom")]))
        [lit "k1"] emptyWorld).2.calls
      = [Call.GetHistoryForKey (lit "k1"), Call.HasNext, Call.Next, Call.HasNext, Call.Next]
    ∧ Call.Close ∉ (getHistoryOfState id
        (memStub none (fun _ => .ok [.ok ⟨lit "tx1", lit "100", false⟩, .error (lit "boom")]))
        [lit "k1"] emptyWorld).2.calls
    ∧ (getHistoryOfState id
        (memStub none (fun _ => .ok [.ok ⟨lit "tx1", lit "100", false⟩]))
        [lit "k1"] emptyWorld).2.calls
      = [Call.GetHistoryForKey (lit "k1"), Call.HasNext, Call.Next, Call.HasNext, Call.Close] := by
  decide

/-- C5.  When `PutState` fails, the message of `Init` names `args[0]`, the
tag, and not the key `args[1]` of the attempted write: for the arguments
`init`, `k1`, `100` the write is attempted under `k1` and the message is
`Failed to create asset: init`, which does not contain `k1`. -/
theorem Init_error_names_tag :
    Init (memStub (some (lit "boom")) (fun _ => .ok [])) [lit "init", lit "k1", lit "100"]
        emptyWorld
      = ({ Status := 500, Message := lit "Failed to create asset: init", Payload := none },
          ⟨[], [Call.PutState (lit "k1") (lit "100")]⟩)
    ∧ ¬ (lit "k1" <:+: lit "Failed to create asset: init") := by
  decide

/-- C6.  When the read `GetState key` itself does not fail, `get [key]` fails
with `Asset not found: ` followed by the key exactly when the accessor returns
the absent value; a present value of length zero gives the success payload
whose value is the empty string. -/
theorem get_not_found_iff {σ : Type} (stub : ChaincodeStub σ) (key : GoString) (w : World σ)
    (v : Option (List Byte)) (hread : stub.GetState key w.ledger = .ok v) :
    ((get stub [key] w).1 = ([], some (lit "Asset not found: " ++ key)) ↔ v = none)
    ∧ (v = some [] →
        (get stub [key] w).1
          = (lit "\x7b\"key\":" ++ jsonString key ++ lit ",\"value\":\"\"\x7d", none)) := by
  cases v with
  | none => simp [get, callGetState, hread]
  | some value =>
    refine ⟨by simp [get, callGetState, hread], ?_⟩
    intro hv
    simp only [Option.some.injEq] at hv
    subst hv
    simp [get, callGetState, hread, get.Marshal]
    rfl

/-- C6, witness: the key `missing` was never set in the empty in-memory
ledger, and `get` fails with `Asset not found: missing`. -/
theorem get_not_found_iff_witness :
    (get (memStub none (fun _ => .ok [])) [lit "missing"] emptyWorld).1
      = ([], some (lit "Asset not found: missing")) :=
  (get_not_found_iff (memStub none (fun _ => .ok [])) (lit "missing") emptyWorld none rfl).1.2 rfl

/-- C7.  Over an accessor whose `PutState` does not fail, `set` fails, with
the argument error, exactly when the argument list does not have two
elements; on `[key, value]` it returns the confirmation text naming the key
and the value. -/
theorem set_arity {σ : Type} (stub : ChaincodeStub σ) (args : List GoString) (w : World σ)
    (hput : ∀ key value, (stub.PutState key value w.ledger).1 = none) :
    ((set stub args w).1 = ([], some (lit "Incorrect arguments. Expecting a key and a value"))
        ↔ args.length ≠ 2)
    ∧ ((set stub args w).1.2 ≠ none ↔ args.length ≠ 2)
    ∧ ∀ key value, args = [key, value] →
        (set stub args w).1
          = (lit "The state of the asset " ++ key
              ++ lit " has been setup successfully with the value " ++ value, none) := by
  by_cases h : args.length ≠ 2
  · refine ⟨by simp [set, h], by simp [set, h], ?_⟩
    intro key value e
    subst e
    simp at h
  · have h2 : args.length = 2 := by omega
    simp only [set, h, if_false, callPutState, hput]
    refine ⟨by simp, by simp, ?_⟩
    intro key value e
    subst e
    simp

/-- C7, witness: `set` on `k1`, `200` over the in-memory accessor. -/
theorem set_arity_witness :
    (set (memStub none (fun _ => .ok [])) [lit "k1", lit "200"] emptyWorld).1
      = (lit "The state of the asset k1 has been setup successfully with the value 200", none) :=
  (set_arity (memStub none (fun _ => .ok [])) [lit "k1", lit "200"] emptyWorld
    (fun _ _ => rfl)).2.2 (lit "k1") (lit "200") rfl

/-- C8.  On an argument list whose length is not one, `get` returns the
argument error whatever the accessor is, and leaves the world as it was: no
call is made on the accessor. -/
theorem get_arity_first {σ : Type} (stub : ChaincodeStub σ) (args : List GoString)
    (w : World σ) (h : args.length ≠ 1) :
    get stub args w = (([], some (lit "Incorrect arguments. Expecting a key")), w) := by
  simp [get, h]

/-- C8, witness: `get` on two arguments, over an accessor whose ledger holds
the first of them. -/
theorem get_arity_first_witness :
    get (memStub none (fun _ => .ok [])) [lit "k1", lit "k2"] ⟨[(lit "k1", lit "100")], []⟩
      = (([], some (lit "Incorrect arguments. Expecting a key")),
          ⟨[(lit "k1", lit "100")], []⟩) :=
  get_arity_first (memStub none (fun _ => .ok [])) [lit "k1", lit "k2"]
    ⟨[(lit "k1", lit "100")], []⟩ (by decide)

/-- C9.  `Invoke` routes the names `set`, `get` and `getHistoryOfState` to
their handlers and returns the envelope of the handler's return value (status
200 and the string's bytes on success, status 500 and the error message on
failure); any other name, `Set` for one, gives the failure
`Invalid chaincode function name` and leaves the world as it was. -/
theorem Invoke_routes {σ : Type} (verbs : GoString → GoString) (stub : ChaincodeStub σ)
    (fn : GoString) (args : List GoString) (w : World σ) :
    (fn = lit "set" → Invoke verbs stub fn args w = envelope (set stub args w))
    ∧ (fn = lit "get" → Invoke verbs stub fn args w = envelope (get stub args w))
    ∧ (fn = lit "getHistoryOfState" →
        Invoke verbs stub fn args w = envelope (getHistoryOfState verbs stub args w))
    ∧ (fn ≠ lit "set" → fn ≠ lit "get" → fn ≠ lit "getHistoryOfState" →
        Invoke verbs stub fn args w
          = ({ Status := 500, Message := lit "Invalid chaincode function name",
               Payload := none }, w))
    ∧ Invoke verbs stub (lit "Set") args w
        = ({ Status := 500, Message := lit "Invalid chaincode function name",
             Payload := none }, w) := by
  refine ⟨?_, ?_, ?_, ?_, ?_⟩
  · intro h
    subst h
    simp only [Invoke, if_true, envelope, shimError, shimSuccess]
  · intro h
    subst h
    have : lit "get" ≠ lit "set" := by decide
    simp only [Invoke, this, if_false, if_true, envelope, shimError, shimSuccess]
  · intro h
    subst h
    have h1 : lit "getHistoryOfState" ≠ lit "set" := by decide
    have h2 : lit "getHistoryOfState" ≠ lit "get" := by decide
    simp only [Invoke, h1, h2, if_false, if_true, envelope, shimError, shimSuccess]
  · intro h1 h2 h3
    simp only [Invoke, h1, h2, h3, if_false, shimError]
  · have h1 : lit "Set" ≠ lit "set" := by decide
    have h2 : lit "Set" ≠ lit "get" := by decide
    have h3 : lit "Set" ≠ lit "getHistoryOfState" := by decide
    simp only [Invoke, h1, h2, h3, if_false, shimError]

/-- C10.  When a fetch fails inside the loop, `getHistoryOfState` passes the
text of the error to `fmt.Errorf` as part of the format, so a `%` in it is
read as a verb: over an iterator that yields one record and then fails with
`disk 100% full` the query returns the empty string and the message
`Error in reading history recorddisk 100%!f(MISSING)ull`, which does not
contain the text of the error; `get`, which passes the error as an operand of
`%s`, keeps the same text whole. -/
theorem getHistoryOfState_read_error_mangled :
    (getHistoryOfState fmtVerbs
        (memStub none (fun _ => .ok [.ok ⟨lit "tx1", lit "100", false⟩,
          .error (lit "disk 100% full")]))
        [lit "k1"] emptyWorld).1
      = ([], some (lit "Error in reading history recorddisk 100%!f(MISSING)ull"))
    ∧ ¬ (lit "disk 100% full"
          <:+: lit "Error in reading history recorddisk 100%!f(MISSING)ull")
    ∧ (get { PutState := fun _ _ l => (none, l)
             GetState := fun _ _ => .error (lit "disk 100% full")
             GetHistoryForKey := fun _ _ => .ok [] }
          [lit "k1"] emptyWorld).1
      = ([], some (lit "Failed to get asset: k1 with error: disk 100% full"))
    ∧ lit "disk 100% full" <:+: lit "Failed to get asset: k1 with error: disk 100% full" := by
  decide

/-- C11.  `Init` fails with the argument error exactly when the argument list
does not have three elements, and then leaves the world as it was.  On
`[tag, key, value]`, when `PutState` does not fail, it returns success with no
payload after the one call `PutState key value`, whatever the tag; and when
`GetState` then returns the bytes just put, a following `get [key]` returns
the payload `get` builds for that key and that value. -/
theorem Init_arity_and_store {σ : Type} (stub : ChaincodeStub σ) (args : List GoString)
    (w : World σ) :
    ((Init stub args w).1
          = { Status := 500, Message := lit "Incorrect arguments. Expecting a key and a value",
              Payload := none }
        ↔ args.length ≠ 3)
    ∧ (args.length ≠ 3 → (Init stub args w).2 = w)
    ∧ ∀ tag key value, args = [tag, key, value] →
        (stub.PutState key value w.ledger).1 = none →
        Init stub args w
            = ({ Status := 200, Message := [], Payload := none },
                ⟨(stub.PutState key value w.ledger).2, w.calls ++ [Call.PutState key value]⟩)
          ∧ (stub.GetState key (stub.PutState key value w.ledger).2 = .ok (some value) →
              (get stub [key] (Init stub args w).2).1
                = (get.Marshal { Key := key, Value := value }, none)) := by
  refine ⟨?_, ?_, ?_⟩
  · by_cases h : args.length ≠ 3
    · simp [Init, h, shimError]
    · simp only [Init, h, if_false, callPutState]
      have hne : ∀ x : GoString, lit "Failed to create asset: " ++ x
          ≠ lit "Incorrect arguments. Expecting a key and a value" := by
        intro x hx
        have hh := congrArg List.head? hx
        rw [show (lit "Failed to create asset: " ++ x).head? = some 0x46 from rfl,
          show (lit "Incorrect arguments. Expecting a key and a value").head? = some 0x49
            from rfl] at hh
        exact absurd hh (by decide)
      cases hp : (stub.PutState (args.getD 1 []) (args.getD 2 []) w.ledger).1 with
      | none => simp [shimSuccess, h]
      | some e => simp [shimError, h, hne]
  · intro h
    simp [Init, h]
  · intro tag key value e hput
    subst e
    have hi : Init stub [tag, key, value] w
        = ({ Status := 200, Message := [], Payload := none },
            ⟨(stub.PutState key value w.ledger).2, w.calls ++ [Call.PutState key value]⟩) := by
      simp [Init, callPutState, hput, shimSuccess]
    refine ⟨hi, ?_⟩
    intro hget
    rw [hi]
    simp [get, callGetState, hget]

/-- C11, witness: `Init` on `init`, `k1`, `100` over the in-memory accessor,
then `get` on `k1`. -/
theorem Init_arity_and_store_witness :
    Init (memStub none (fun _ => .ok [])) [lit "init", lit "k1", lit "100"] emptyWorld
        = ({ Status := 200, Message := [], Payload := none },
            ⟨[(lit "k1", lit "100")], [Call.PutState (lit "k1") (lit "100")]⟩)
    ∧ (get (memStub none (fun _ => .ok [])) [lit "k1"]
          (Init (memStub none (fun _ => .ok [])) [lit "init", lit "k1", lit "100"]
            emptyWorld).2).1
        = (lit "\x7b\"key\":\"k1\",\"value\":\"100\"\x7d", none) :=
  ⟨((Init_arity_and_store (memStub none (fun _ => .ok [])) [lit "init", lit "k1", lit "100"]
      emptyWorld).2.2 (lit "init") (lit "k1") (lit "100") rfl rfl).1, by decide⟩

/-- C12.  Writes overwrite unconditionally.  Over an accessor whose `PutState`
does not fail on the two writes and whose `GetState` returns the bytes of the
latest one: `set [key, v1]`, `set [key, v2]`, `get [key]` make exactly the
calls `PutState key v1`, `PutState key v2`, `GetState key` (no read before a
write) and `get` returns the payload it builds for `key` and `v2`, whatever
the world held before; decoding that payload gives `key` and `v2` when they
are valid UTF-8. -/
theorem set_set_get_last {σ : Type} (stub : ChaincodeStub σ) (key v1 v2 : GoString)
    (w : World σ)
    (hput1 : (stub.PutState key v1 w.ledger).1 = none)
    (hput2 : (stub.PutState key v2 (stub.PutState key v1 w.ledger).2).1 = none)
    (hget : stub.GetState key (stub.PutState key v2 (stub.PutState key v1 w.ledger).2).2
      = .ok (some v2)) :
    get stub [key] (set stub [key, v2] (set stub [key, v1] w).2).2
        = ((get.Marshal { Key := key, Value := v2 }, none),
            ⟨(stub.PutState key v2 (stub.PutState key v1 w.ledger).2).2,
              w.calls ++ [Call.PutState key v1, Call.PutState key v2, Call.GetState key]⟩)
    ∧ (ValidString key = true → ValidString v2 = true →
        decodeGetPayload (get stub [key] (set stub [key, v2] (set stub [key, v1] w).2).2).1.1
          = some (key, v2)) := by
  have h : get stub [key] (set stub [key, v2] (set stub [key, v1] w).2).2
      = ((get.Marshal { Key := key, Value := v2 }, none),
          ⟨(stub.PutState key v2 (stub.PutState key v1 w.ledger).2).2,
            w.calls ++ [Call.PutState key v1, Call.PutState key v2, Call.GetState key]⟩) := by
    simp [set, get, callPutState, callGetState, hput1, hput2, hget]
  refine ⟨h, ?_⟩
  intro hk hv
  rw [h]
  exact decode_get_Marshal key v2 hk hv

/-- C12, witness: the key `k1` holds `1`, is set to `100` and then to `200`,
and `get` returns the payload with `200`. -/
theorem set_set_get_last_witness :
    (get (memStub none (fun _ => .ok [])) [lit "k1"]
      (set (memStub none (fun _ => .ok [])) [lit "k1", lit "200"]
        (set (memStub none (fun _ => .ok [])) [lit "k1", lit "100"]
          ⟨[(lit "k1", lit "1")], []⟩).2).2).1
      = (get.Marshal { Key := lit "k1", Value := lit "200" }, none)
    ∧ get.Marshal { Key := lit "k1", Value := lit "200" }
      = lit "\x7b\"key\":\"k1\",\"value\":\"200\"\x7d" :=
  ⟨congrArg Prod.fst
      (set_set_get_last (memStub none (fun _ => .ok [])) (lit "k1") (lit "100") (lit "200")
        ⟨[(lit "k1", lit "1")], []⟩ rfl rfl rfl).1,
    by decide⟩

/-- C15.  No write happens outside a well-formed `set`: when the function
name is not `set` or the argument list does not have two elements, `Invoke`
leaves the ledger state as it was, and none of the calls it adds to the log
is a `PutState`. -/
theorem Invoke_no_write {σ : Type} (verbs : GoString → GoString) (stub : ChaincodeStub σ)
    (fn : GoString) (args : List GoString) (w : World σ)
    (h : fn ≠ lit "set" ∨ args.length ≠ 2) :
    (Invoke verbs stub fn args w).2.ledger = w.ledger
    ∧ ∃ new, (Invoke verbs stub fn args w).2.calls = w.calls ++ new
        ∧ ∀ c ∈ new, c.isPut = false := by
  have hwrap : ∀ r : Result × World σ,
      (match r.1.2 with
        | some err => (shimError err, r.2)
        | none => (shimSuccess (some r.1.1), r.2)).2 = r.2 := by
    intro r
    cases r.1.2 <;> rfl
  unfold Invoke
  simp only
  by_cases h1 : fn = lit "set"
  · have h2 : args.length ≠ 2 := by
      rcases h with h | h
      · exact absurd h1 h
      · exact h
    have hs : set stub args w
        = (([], some (lit "Incorrect arguments. Expecting a key and a value")), w) := by
      simp [set, h2]
    rw [if_pos h1, hwrap, hs]
    exact ⟨rfl, [], by simp, by simp⟩
  rw [if_neg h1]
  by_cases h3 : fn = lit "get"
  · rw [if_pos h3, hwrap]
    exact get_frame stub args w
  rw [if_neg h3]
  by_cases h4 : fn = lit "getHistoryOfState"
  · rw [if_pos h4, hwrap]
    exact getHistoryOfState_frame verbs stub args w
  rw [if_neg h4]
  exact ⟨rfl, [], by simp, by simp⟩

/-- C15, witness: `set` with one argument, over a ledger that holds `k1`. -/
theorem Invoke_no_write_witness :
    (Invoke id (memStub none (fun _ => .ok [])) (lit "set") [lit "k1"]
        ⟨[(lit "k1", lit "100")], []⟩).2.ledger = [(lit "k1", lit "100")]
    ∧ ∃ new, (Invoke id (memStub none (fun _ => .ok [])) (lit "set") [lit "k1"]
        ⟨[(lit "k1", lit "100")], []⟩).2.calls = [] ++ new
        ∧ ∀ c ∈ new, c.isPut = false :=
  Invoke_no_write id (memStub none (fun _ => .ok [])) (lit "set") [lit "k1"]
    ⟨[(lit "k1", lit "100")], []⟩ (Or.inr (by decide))

/-- C16.  `getHistoryOfState` fails with `Must provide a key` exactly when the
argument list is empty, and then leaves the world as it was; on a non-empty
list it returns what it returns on the list of the first argument alone. -/
theorem getHistoryOfState_first_arg {σ : Type} (verbs : GoString → GoString)
    (stub : ChaincodeStub σ) (args : List GoString) (w : World σ) :
    ((getHistoryOfState verbs stub args w).1 = ([], some (lit "Must provide a key"))
        ↔ args = [])
    ∧ (args = [] →
        getHistoryOfState verbs stub args w = (([], some (lit "Must provide a key")), w))
    ∧ ∀ key more, args = key :: more →
        getHistoryOfState verbs stub args w = getHistoryOfState verbs stub [key] w := by
  refine ⟨?_, ?_, ?_⟩
  · constructor
    · intro hres
      cases args with
      | nil => rfl
      | cons key more =>
        exfalso
        have hM : (lit "Must provide a key").head? = some 0x4D := rfl
        simp only [getHistoryOfState, List.length_cons, callGetHistoryForKey] at hres
        rw [if_neg (by omega)] at hres
        simp only [List.getD_cons_zero] at hres
        cases hopen : stub.GetHistoryForKey key w.ledger with
        | error e =>
          rw [hopen] at hres
          simp only [Prod.mk.injEq, Option.some.injEq, true_and] at hres
          have hE := Sprintf0_head verbs 0x45 (lit "rror in fetching history: " ++ e)
            (by decide)
          have hh := congrArg List.head? hres
          rw [hM] at hh
          rw [show Sprintf0 verbs (lit "Error in fetching history: " ++ e)
            = Sprintf0 verbs (0x45 :: (lit "rror in fetching history: " ++ e)) from rfl,
            hE] at hh
          exact absurd hh (by decide)
        | ok it =>
          rw [hopen] at hres
          simp only at hres
          cases hl : (getHistoryOfState.loop verbs it
            { NumberOfTransactions := 0, AssetName := key, History := none }
            { ledger := w.ledger, calls := w.calls ++ [Call.GetHistoryForKey key] }).1 with
          | error msg =>
            rw [hl] at hres
            simp only [Prod.mk.injEq, Option.some.injEq, true_and] at hres
            have hE := loop_error_head verbs it _ _ msg hl
            rw [hres, hM] at hE
            exact absurd hE (by decide)
          | ok response =>
            rw [hl] at hres
            simp at hres
    · intro e
      subst e
      rfl
  · intro e
    subst e
    rfl
  · intro key more e
    subst e
    rfl

/-- C13.  A history record whose value is the base-10 text of an integer `n`
that fits `int` (an optional sign and decimal digits, as `strconv` itself
writes `n`) is reported with the value field `n`: over an iterator that yields
`recs` without error the query returns no error, and in the decoded payload
`numberOfTransactions` is the number of records and the entry at the position
of the record holds the value `n` and the delete flag of the record. -/
theorem getHistoryOfState_decimal_value {σ : Type} (verbs : GoString → GoString)
    (stub : ChaincodeStub σ) (key : GoString) (recs : List KeyModification) (w : World σ)
    (i : Nat) (km : KeyModification) (n : Int)
    (hopen : stub.GetHistoryForKey key w.ledger = .ok (recs.map .ok))
    (hi : recs[i]? = some km) (hval : decimalValue km.Value = some n)
    (hlo : -(2 ^ 63) ≤ n) (hhi : n ≤ 2 ^ 63 - 1) :
    (getHistoryOfState verbs stub [key] w).1.2 = none
    ∧ ∃ report : getHistoryOfState.returnValues,
      decodeReport (getHistoryOfState verbs stub [key] w).1.1 = some report
      ∧ report.NumberOfTransactions = recs.length
      ∧ ∃ entry, (report.History.getD [])[i]? = some entry
          ∧ entry.Value = n ∧ entry.IsDelete = km.IsDelete := by
  rw [getHistoryOfState_ok verbs stub key [] recs w hopen, foldl_history_none]
  refine ⟨rfl, _,
    decodeReport_text recs.length key (if recs = [] then none else some (recs.map historyOf)),
    rfl, _, decoded_entry recs i km hi, ?_, rfl⟩
  show (Atoi km.Value).1 = n
  rw [Atoi_decimal km.Value n hval hlo hhi]

/-- C13, witness: the key `k1` is written with `100` and then with `200` over
the accessor that keeps the history; the payload counts two transactions, with
the values 100 and 200 in that order, neither a delete. -/
theorem getHistoryOfState_decimal_value_witness :
    (getHistoryOfState id ledgerStub [lit "k1"]
        (set ledgerStub [lit "k1", lit "200"]
          (set ledgerStub [lit "k1", lit "100"] ⟨[], []⟩).2).2).1
      = (lit ("\x7b\"numberOfTransactions\":2,\"assetName\":\"k1\",\"history\":"
          ++ "[\x7b\"txID\":\"tx0\",\"value\":100,\"isDelete\":false\x7d,"
          ++ "\x7b\"txID\":\"tx1\",\"value\":200,\"isDelete\":false\x7d]\x7d"), none)
    ∧ decodeReport (getHistoryOfState id ledgerStub [lit "k1"]
        (set ledgerStub [lit "k1", lit "200"]
          (set ledgerStub [lit "k1", lit "100"] ⟨[], []⟩).2).2).1.1
      = some { NumberOfTransactions := 2, AssetName := lit "k1",
               History := some [{ TxID := lit "tx0", Value := 100, IsDelete := false },
                                { TxID := lit "tx1", Value := 200, IsDelete := false }] }
    ∧ (getHistoryOfState id ledgerStub [lit "k1"]
        (set ledgerStub [lit "k1", lit "200"]
          (set ledgerStub [lit "k1", lit "100"] ⟨[], []⟩).2).2).1.2 = none :=
  ⟨by decide, by decide,
    (getHistoryOfState_decimal_value id ledgerStub (lit "k1")
      [⟨lit "tx0", lit "100", false⟩, ⟨lit "tx1", lit "200", false⟩]
      (set ledgerStub [lit "k1", lit "200"]
        (set ledgerStub [lit "k1", lit "100"] ⟨[], []⟩).2).2
      1 ⟨lit "tx1", lit "200", false⟩ 200 rfl rfl (by decide) (by decide) (by decide)).1⟩

/-- C14, as amended.  Over an iterator that yields `recs` without error, the
payload of `getHistoryOfState [key]` is the JSON object with the members
`numberOfTransactions` (the number of records, in decimal), `assetName` (the
key as a JSON string) and `history`, in that order; `history` is `null` when
there is no record, and otherwise the JSON array of one object with the
members `txID`, `value`, `isDelete` per record, in the order of the records. -/
theorem getHistoryOfState_payload {σ : Type} (verbs : GoString → GoString)
    (stub : ChaincodeStub σ) (key : GoString) (recs : List KeyModification) (w : World σ)
    (hopen : stub.GetHistoryForKey key w.ledger = .ok (recs.map .ok)) :
    (getHistoryOfState verbs stub [key] w).1
      = (lit "\x7b\"numberOfTransactions\":" ++ formatInt recs.length
          ++ lit ",\"assetName\":" ++ jsonString key ++ lit ",\"history\":"
          ++ (if recs = [] then lit "null"
              else 0x5B :: joinComma (recs.map (fun km =>
                lit "\x7b\"txID\":" ++ jsonString km.TxId
                  ++ lit ",\"value\":" ++ formatInt (Atoi km.Value).1
                  ++ lit ",\"isDelete\":" ++ (if km.IsDelete then lit "true" else lit "false")
                  ++ lit "\x7d")) ++ [0x5D])
          ++ lit "\x7d", none) := by
  rw [getHistoryOfState_ok verbs stub key [] recs w hopen, foldl_history_none]
  by_cases h : recs = []
  · subst h
    rfl
  · simp only [getHistoryOfState.Marshal, if_neg h, List.map_map]
    rfl

/-- C14, witness: one record, a delete with no value. -/
theorem getHistoryOfState_payload_witness :
    (getHistoryOfState id (memStub none (fun _ => .ok [.ok ⟨lit "tx1", [], true⟩]))
        [lit "k1"] emptyWorld).1
      = (lit ("\x7b\"numberOfTransactions\":1,\"assetName\":\"k1\",\"history\":"
          ++ "[\x7b\"txID\":\"tx1\",\"value\":0,\"isDelete\":true\x7d]\x7d"), none) :=
  (getHistoryOfState_payload id (memStub none (fun _ => .ok [.ok ⟨lit "tx1", [], true⟩]))
    (lit "k1") [⟨lit "tx1", [], true⟩] emptyWorld rfl).trans (by decide)

/-- C14, as stated, fails for a key with no history: the query succeeds and
the member `history` of the payload is `null`, not the empty JSON array. -/
theorem getHistoryOfState_empty_history_null :
    (getHistoryOfState id (memStub none (fun _ => .ok [])) [lit "k1"] emptyWorld).1
      = (lit "\x7b\"numberOfTransactions\":0,\"assetName\":\"k1\",\"history\":null\x7d", none)
    ∧ (getHistoryOfState id (memStub none (fun _ => .ok [])) [lit "k1"] emptyWorld).1
      ≠ (lit "\x7b\"numberOfTransactions\":0,\"assetName\":\"k1\",\"history\":[]\x7d", none) := by
  decide

end Sacc
